import Mathlib

/-!
Verification development for the tinymalloc bitmap allocator
(`src/tinymalloc.c`, multi-arena variant).

The allocator state of one arena is embedded shallowly:

* machine integers (`size_t`, `uint64_t`) are natural numbers with an
  explicit `% 2 ^ 64` at every operation where C wrap-around can occur;
* the heap is a flat byte-address space; since the allocator itself only
  ever loads and stores whole `size_t` header words, heap contents are
  modelled as a map from byte address to the header word stored there;
* `mmap` outcomes are an oracle argument (`none` = mapping failure,
  `some base` = a fresh mapping at address `base`);
* the machine models a single arena (`num_arenas = 1`), the setting of the
  single-threaded claims; `select_arena` then always yields this arena and
  `find_arena_for_pointer` reduces to its range check;
* mutexes do not influence the single-threaded semantics; the lock
  behaviour of the entry points is modelled separately as event traces.
-/

namespace Tinymalloc

/-! ## Compile-time constants from the source -/

def HEAP_SIZE : Nat := 1048576

def BLOCK_SIZE : Nat := 16

def SMALL_ALLOCATION_THRESHOLD : Nat := 4 * BLOCK_SIZE

def LARGE_ALLOCATION_THRESHOLD : Nat := 256 * BLOCK_SIZE

/-- `sizeof(size_t)` on the 64-bit target. -/
def sizeof_size_t : Nat := 8

/-- `sizeof(uint64_t)`. -/
def sizeof_uint64_t : Nat := 8

/-- One past the largest `uint64_t`/`size_t` value: `2 ^ 64`. -/
def U64 : Nat := 2 ^ 64

def UINT64_MAX : Nat := 2 ^ 64 - 1

def SIZE_MAX : Nat := 2 ^ 64 - 1

/-- `sysconf(_SC_PAGESIZE)` on the target. -/
def PAGE_SIZE : Nat := 4096

/-! ## Bit-scanning primitives

`__builtin_ctzll` and `__builtin_ffsll`, defined by structural scans so
that facts about them are genuine theorems rather than restatements. -/

/-- Count trailing zeros by repeated halving; `fuel` bounds the scan at the
word width, so the all-zero argument (undefined for the C builtin) yields
the fuel. -/
def ctzAux : Nat → Nat → Nat
  | 0, _ => 0
  | fuel + 1, n => if n % 2 = 1 then 0 else 1 + ctzAux fuel (n / 2)

/-- `__builtin_ctzll`. -/
def ctz64 (n : Nat) : Nat := ctzAux 64 n

/-- Find-first-set scanning bit positions upward from `i`;
returns `pos + 1` for the first set position, `0` if none below the fuel. -/
def ffsAux : Nat → Nat → Nat → Nat
  | 0, _, _ => 0
  | fuel + 1, n, i => if n.testBit i then i + 1 else ffsAux fuel n (i + 1)

/-- `__builtin_ffsll`: one plus the index of the least significant one bit,
or `0` when the argument is zero. -/
def ffs64 (n : Nat) : Nat := ffsAux 64 n 0

/-- Bitwise complement `~w` of a `uint64_t` value. -/
def compl64 (w : Nat) : Nat := w ^^^ UINT64_MAX

/-- The source aligns the header address with
`(p + sizeof(size_t) - 1) & ~(sizeof(size_t) - 1)`; on the 64-bit target
the mask `~(sizeof(size_t)-1)` is `UINT64_MAX ^^^ (sizeof(size_t)-1)` and
the addition is `uintptr_t` arithmetic. -/
def align_size_t (addr : Nat) : Nat :=
  ((addr + (sizeof_size_t - 1)) % U64) &&& (UINT64_MAX ^^^ (sizeof_size_t - 1))

/-! ## Arena state -/

/-- A `size_t` store at byte address `addr`. -/
def store (m : Nat → Nat) (addr v : Nat) : Nat → Nat :=
  fun x => if x = addr then v else m x

/-- One arena: the `BitmapAllocator` fields `heap` (base address of the heap
mapping), `heap_size`, `bitmap` (list of 64-bit words) and `bitmap_size`
(the word count, exactly as the source stores it), together with the heap
contents `mem` and the arena's `allocated_blocks` counter.

Modelled from the spec: the public header declares `BitmapAllocator` as
heap/bitmap/heap_size/bitmap_size only, and the spec's data model (§3) puts
the single `allocated_blocks` counter on the arena, so both increment sites
of the source (`allocate_blocks` and `update_arena_usage`) and the decrement
in `free_blocks` target this one counter. -/
structure Arena where
  heap : Nat
  mem : Nat → Nat
  bitmap : List Nat
  heap_size : Nat
  bitmap_size : Nat
  allocated_blocks : Nat

/-- The arena as `init_memory` leaves it: a fresh zero heap mapping of
`HEAP_SIZE` bytes (the base address returned by `mmap` is taken to be
`2 ^ 40`), a zeroed bitmap of `(heap_size / BLOCK_SIZE + 63) / 64` words,
and a zero counter. -/
def init_arena : Arena :=
  { heap := 2 ^ 40
    mem := fun _ => 0
    bitmap := List.replicate ((HEAP_SIZE / BLOCK_SIZE + 63) / 64) 0
    heap_size := HEAP_SIZE
    bitmap_size := (HEAP_SIZE / BLOCK_SIZE + 63) / 64
    allocated_blocks := 0 }

/-! ## Bitmap operations -/

/-- `set_bit`: mark block `index` as used. -/
def set_bit (a : Arena) (index : Nat) : Arena :=
  let bitmap_index := index / 64
  let bit_offset := index % 64
  let w := a.bitmap.getD bitmap_index 0 ||| (1 <<< bit_offset)
  { a with bitmap := a.bitmap.set bitmap_index w }

/-- `clear_bit`: mark block `index` as free. -/
def clear_bit (a : Arena) (index : Nat) : Arena :=
  let bitmap_index := index / 64
  let bit_offset := index % 64
  let w := a.bitmap.getD bitmap_index 0 &&& compl64 (1 <<< bit_offset)
  { a with bitmap := a.bitmap.set bitmap_index w }

/-- `is_bit_set`. -/
def is_bit_set (a : Arena) (index : Nat) : Bool :=
  (a.bitmap.getD (index / 64) 0 &&& (1 <<< (index % 64))) != 0

/-- The marking loop of `allocate_blocks`: set `count` bits starting at
`start`. -/
def set_bits (a : Arena) (start : Nat) : Nat → Arena
  | 0 => a
  | count + 1 => set_bits (set_bit a start) (start + 1) count

/-- The clearing loop of `free_blocks`. -/
def clear_bits (a : Arena) (start : Nat) : Nat → Arena
  | 0 => a
  | count + 1 => clear_bits (clear_bit a start) (start + 1) count

/-- `free_blocks`: clear the run and decrement the counter
(`size_t` subtraction wraps). -/
def free_blocks (a : Arena) (start_index num_blocks : Nat) : Arena :=
  let a1 := clear_bits a start_index num_blocks
  { a1 with allocated_blocks :=
      (a1.allocated_blocks + (U64 - num_blocks % U64)) % U64 }

/-- The inner free-run check of `find_free_blocks`:
`blocks_needed` bits from `start_block` are all clear. -/
def blocks_all_free (a : Arena) (start : Nat) : Nat → Bool
  | 0 => true
  | count + 1 => !is_bit_set a start && blocks_all_free a (start + 1) count

/-- One iteration of the `find_free_blocks` word loop: for a word that is
not all-ones, take the single candidate position (the word's first free
bit, computed by the size-class-dependent primitive) and accept it when the
run fits below `heap_size / BLOCK_SIZE` and is entirely free. -/
def scan_word (a : Arena) (blocks_needed bitmap_index : Nat) : Option Nat :=
  let w := a.bitmap.getD bitmap_index 0
  if w = UINT64_MAX then none
  else
    let first_free_bit :=
      if blocks_needed ≤ SMALL_ALLOCATION_THRESHOLD / BLOCK_SIZE ∨
          blocks_needed ≥ LARGE_ALLOCATION_THRESHOLD / BLOCK_SIZE then
        ctz64 (compl64 w)
      else
        ffs64 (compl64 w) - 1
    let start_block := bitmap_index * 64 + first_free_bit
    let end_block := start_block + blocks_needed
    if end_block ≤ a.heap_size / BLOCK_SIZE ∧
        blocks_all_free a start_block blocks_needed = true then
      some start_block
    else
      none

/-- The word loop of `find_free_blocks` over a list of word indices,
returning at the first accepted candidate. -/
def scan_words (a : Arena) (blocks_needed : Nat) : List Nat → Nat
  | [] => SIZE_MAX
  | bi :: rest =>
    match scan_word a blocks_needed bi with
    | some s => s
    | none => scan_words a blocks_needed rest

/-- `find_free_blocks`. Note the loop bound
`bitmap_index < bitmap_size / sizeof(uint64_t)`: `bitmap_size` already
counts 64-bit words, so only an eighth of the bitmap words are scanned. -/
def find_free_blocks (a : Arena) (blocks_needed : Nat) : Nat :=
  scan_words a blocks_needed (List.range (a.bitmap_size / sizeof_uint64_t))

/-- The block count `(size + sizeof(size_t) + BLOCK_SIZE - 1) / BLOCK_SIZE`
with `size_t` wrap-around, as computed by `try_allocate` (via
`total_size`), `allocate_memory` and `deallocate_memory`. -/
def nblocks (size : Nat) : Nat :=
  ((size + sizeof_size_t) % U64 + (BLOCK_SIZE - 1)) % U64 / BLOCK_SIZE

/-- `allocate_blocks`: mark the run used, bump the counter, write the
`size` header at the aligned run start and return the user pointer one
header word past it. -/
def allocate_blocks (a : Arena) (start_block blocks_needed size : Nat) :
    Option Nat × Arena :=
  let a1 := set_bits a start_block blocks_needed
  let a2 := { a1 with allocated_blocks :=
      (a1.allocated_blocks + blocks_needed) % U64 }
  let allocated_memory := align_size_t (a2.heap + start_block * BLOCK_SIZE)
  let a3 := { a2 with mem := store a2.mem allocated_memory size }
  (some (allocated_memory + sizeof_size_t), a3)

/-- `extend_heap`: grow the heap by `size` rounded up to the page size.
The fresh mappings are the oracle: `none` models an `mmap` failure (the
source returns NULL leaving the allocator untouched), `some new_base` a
successful replacement heap mapping at `new_base`.  The old heap bytes are
copied to the same offsets at the new base, the old bitmap words are
copied and the new tail is zeroed. -/
def extend_heap (a : Arena) (size : Nat) (oracle : Option Nat) :
    Option Nat × Arena :=
  let extension_size := (size + (PAGE_SIZE - 1)) % U64 / PAGE_SIZE * PAGE_SIZE
  let new_heap_size := (a.heap_size + extension_size) % U64
  let new_bitmap_size := (new_heap_size / BLOCK_SIZE + 63) / 64
  match oracle with
  | none => (none, a)
  | some new_base =>
    let new_mem : Nat → Nat := fun x =>
      if new_base ≤ x ∧ x < new_base + a.heap_size then
        a.mem (a.heap + (x - new_base))
      else if new_base + a.heap_size ≤ x ∧ x < new_base + new_heap_size then 0
      else a.mem x
    (some (new_base + new_heap_size - extension_size),
      { heap := new_base
        mem := new_mem
        bitmap := a.bitmap.take a.bitmap_size ++
          List.replicate (new_bitmap_size - a.bitmap_size) 0
        heap_size := new_heap_size
        bitmap_size := new_bitmap_size
        allocated_blocks := a.allocated_blocks })

/-- `try_allocate`. -/
def try_allocate (a : Arena) (size : Nat) (oracle : Option Nat) :
    Option Nat × Arena :=
  let blocks_needed := nblocks size
  let start_block := find_free_blocks a blocks_needed
  if start_block = SIZE_MAX then
    let extension_size :=
      if blocks_needed * BLOCK_SIZE % U64 > a.heap_size / 4 then
        blocks_needed * BLOCK_SIZE % U64
      else
        a.heap_size / 4
    match extend_heap a extension_size oracle with
    | (none, a1) => (none, a1)
    | (some _, a1) =>
      let start_block := find_free_blocks a1 blocks_needed
      if start_block = SIZE_MAX then (none, a1)
      else allocate_blocks a1 start_block blocks_needed size
  else
    allocate_blocks a start_block blocks_needed size

/-- `update_arena_usage`. -/
def update_arena_usage (a : Arena) (blocks : Nat) : Arena :=
  { a with allocated_blocks := (a.allocated_blocks + blocks) % U64 }

/-- `allocate_memory`: with a single arena, `select_arena` returns this
arena on both of its branches, so the front end is `try_allocate` followed
by the second counter bump. -/
def allocate_memory (a : Arena) (size : Nat) (oracle : Option Nat) :
    Option Nat × Arena :=
  match try_allocate a size oracle with
  | (some p, a1) => (some p, update_arena_usage a1 (nblocks size))
  | (none, a1) => (none, a1)

/-- `tinymalloc` on an initialized allocator (null pointer = `none`). -/
def tinymalloc (a : Arena) (size : Nat) (oracle : Option Nat) :
    Option Nat × Arena :=
  if size = 0 then (none, a)
  else allocate_memory a size oracle

/-- `find_arena_for_pointer` with a single arena: the arena whose half-open
heap range contains `ptr`, if any. -/
def find_arena_for_pointer (a : Arena) (ptr : Nat) : Option Unit :=
  if a.heap ≤ ptr ∧ ptr < a.heap + a.heap_size then some () else none

/-- `deallocate_memory`.  The pointer difference
`(uint8_t *)actual_start - allocator->heap` is `ptrdiff_t` (signed) and its
division by `BLOCK_SIZE` truncates toward zero, hence `Int.tdiv`; the
quotient is then converted back to `size_t` (non-negative in every call
reached through `find_arena_for_pointer`). -/
def deallocate_memory (a : Arena) (ptr : Nat) : Arena :=
  let actual_start := ptr - sizeof_size_t
  let block_index :=
    (Int.tdiv ((actual_start : Int) - (a.heap : Int)) (BLOCK_SIZE : Int)).toNat
  let size := a.mem actual_start
  let blocks_to_free := nblocks size
  if block_index + blocks_to_free ≤ a.heap_size / BLOCK_SIZE then
    free_blocks a block_index blocks_to_free
  else
    a

/-- `tinyfree` (null pointer = `0`). -/
def tinyfree (a : Arena) (ptr : Nat) : Arena :=
  if ptr = 0 then a
  else
    match find_arena_for_pointer a ptr with
    | none => a
    | some _ => deallocate_memory a ptr

/-! ## Specification-side notions and auxiliary machines -/

/-- The lowest clear bit position of a word, `64` when the low 64 bits are
all ones (spec wording: the word's first free bit). -/
def leastClearAux (w : Nat) : Nat → Nat → Nat
  | 0, j => j
  | fuel + 1, j => if w.testBit j = false then j else leastClearAux w fuel (j + 1)

def leastClearBit (w : Nat) : Nat := leastClearAux w 64 0

/-- The behaviour of `find_free_blocks` as the amended claim C3 states it:
word indices below `bitmap_size / sizeof(uint64_t)` are visited in order;
a word that is not all-ones contributes the single candidate
`64 * word_index + (lowest clear bit)`; the first candidate whose
`blocks_needed`-bit run is entirely free and ends no later than
`heap_size / BLOCK_SIZE` is returned, `SIZE_MAX` when no candidate
qualifies. -/
def amended_scan (a : Arena) (blocks_needed : Nat) : List Nat → Nat
  | [] => SIZE_MAX
  | bi :: rest =>
    let w := a.bitmap.getD bi 0
    let start := bi * 64 + leastClearBit w
    if w ≠ UINT64_MAX ∧ start + blocks_needed ≤ a.heap_size / BLOCK_SIZE ∧
        (∀ k, k < blocks_needed → is_bit_set a (start + k) = false) then
      start
    else amended_scan a blocks_needed rest

def amendedFindFreeBlocks (a : Arena) (blocks_needed : Nat) : Nat :=
  amended_scan a blocks_needed (List.range (a.bitmap_size / sizeof_uint64_t))

/-- `find_free_blocks` with the size-class branch removed: the candidate
bit is always obtained by count-trailing-zeros of the complement
(claim C8: either primitive alone is a conforming implementation). -/
def scan_word_ctz (a : Arena) (blocks_needed bitmap_index : Nat) : Option Nat :=
  let w := a.bitmap.getD bitmap_index 0
  if w = UINT64_MAX then none
  else
    let first_free_bit := ctz64 (compl64 w)
    let start_block := bitmap_index * 64 + first_free_bit
    let end_block := start_block + blocks_needed
    if end_block ≤ a.heap_size / BLOCK_SIZE ∧
        blocks_all_free a start_block blocks_needed = true then
      some start_block
    else
      none

def scan_words_ctz (a : Arena) (blocks_needed : Nat) : List Nat → Nat
  | [] => SIZE_MAX
  | bi :: rest =>
    match scan_word_ctz a blocks_needed bi with
    | some s => s
    | none => scan_words_ctz a blocks_needed rest

def find_free_blocks_ctz (a : Arena) (blocks_needed : Nat) : Nat :=
  scan_words_ctz a blocks_needed (List.range (a.bitmap_size / sizeof_uint64_t))

/-- Well-formedness of an arena state: the stored sizes are consistent, the
bitmap holds `uint64_t` values, and the heap mapping is page-aligned,
nonzero and of realistic magnitude. -/
def WfA (a : Arena) : Prop :=
  a.bitmap.length = a.bitmap_size ∧
  (∀ w ∈ a.bitmap, w < U64) ∧
  a.bitmap_size = (a.heap_size / BLOCK_SIZE + 63) / 64 ∧
  a.heap_size < 2 ^ 50 ∧
  0 < a.heap ∧ a.heap % PAGE_SIZE = 0 ∧ a.heap < 2 ^ 60

/-- A successful `mmap` returns a page-aligned nonzero address, far below
`2 ^ 60` in the 64-bit user address space. -/
def OracleOk (o : Option Nat) : Prop :=
  ∀ b ∈ o, b % PAGE_SIZE = 0 ∧ 0 < b ∧ b < 2 ^ 60

/-- Block index of the run backing the user pointer `p` in the (never
relocated) initial heap mapping at base `2 ^ 40`. -/
def runStart (p : Nat) : Nat := (p - (2 ^ 40 + sizeof_size_t)) / BLOCK_SIZE

/-- Block `j` lies in the run of the live allocation `ps = (pointer, size)`. -/
def inRun (ps : Nat × Nat) (j : Nat) : Prop :=
  runStart ps.1 ≤ j ∧ j < runStart ps.1 + nblocks ps.2

def RunsDisjoint (x y : Nat × Nat) : Prop := ∀ j, ¬(inRun x j ∧ inRun y j)

/-- One single-threaded allocator step on the single arena, with ghost
bookkeeping of the live allocations (pointer, requested size): an
allocation that succeeds, an allocation that fails, or a deallocation of a
live pointer.  Allocation requests satisfy `size + 24 < 2 ^ 64` (no
`size_t` wrap in the block-count computation) and the growth oracle is
`none`, i.e. the heap is never extended or relocated — the regime of the
amended claims C1 and C4. -/
inductive Step : Arena × List (Nat × Nat) → Arena × List (Nat × Nat) → Prop where
  | allocOk : ∀ a a' L s p, s + 24 < U64 →
      tinymalloc a s none = (some p, a') →
      Step (a, L) (a', (p, s) :: L)
  | allocFail : ∀ a a' L s, tinymalloc a s none = (none, a') →
      Step (a, L) (a', L)
  | free : ∀ a L ps, ps ∈ L →
      Step (a, L) (tinyfree a ps.1, L.erase ps)

/-- Reachability from the freshly initialized single arena. -/
def Reach (x : Arena × List (Nat × Nat)) : Prop :=
  Relation.ReflTransGen Step (init_arena, []) x

/-- The data-structure invariant tying the bitmap, the headers and the
live-allocation set together (spec §3, Invariants). -/
def Inv (x : Arena × List (Nat × Nat)) : Prop :=
  x.1.heap = 2 ^ 40 ∧ x.1.heap_size = HEAP_SIZE ∧ x.1.bitmap_size = 1024 ∧
  x.1.bitmap.length = 1024 ∧ (∀ w ∈ x.1.bitmap, w < U64) ∧
  (∀ ps ∈ x.2,
    ps.1 = 2 ^ 40 + runStart ps.1 * BLOCK_SIZE + sizeof_size_t ∧
    ps.2 + 24 < U64 ∧ 1 ≤ nblocks ps.2 ∧
    runStart ps.1 + nblocks ps.2 ≤ 65536 ∧
    x.1.mem (2 ^ 40 + runStart ps.1 * BLOCK_SIZE) = ps.2) ∧
  x.2.Pairwise RunsDisjoint ∧ x.2.Nodup ∧
  (∀ j, j < 65536 → (is_bit_set x.1 j = true ↔ ∃ ps ∈ x.2, inRun ps j))

/-! ## Lock-acquisition traces (claim C10) -/

inductive MutexId where
  | malloc_mutex : MutexId
  | arena_index_mutex : MutexId
  | arena_mutex : Nat → MutexId
deriving DecidableEq

inductive LockEvent where
  | lock : MutexId → LockEvent
  | unlock : MutexId → LockEvent
deriving DecidableEq

/-- The mutex operations `tinymalloc` performs, in order, mirroring the
control flow of the source: nothing for `size == 0`; otherwise the global
`malloc_mutex` is taken, `select_arena` briefly takes `arena_index_mutex`
(only on a thread's first call, while `malloc_mutex` is still held), and
`malloc_mutex` is released on every return path.  No per-arena mutex is
ever locked. -/
def tinymallocLocks (first_call : Bool) (size : Nat) : List LockEvent :=
  if size = 0 then []
  else
    [.lock .malloc_mutex] ++
      (if first_call then [.lock .arena_index_mutex, .unlock .arena_index_mutex]
       else []) ++
      [.unlock .malloc_mutex]

/-- The mutex operations `tinyfree` performs: nothing for a null pointer,
otherwise lock and unlock of the global `malloc_mutex` on every path. -/
def tinyfreeLocks (ptr : Nat) : List LockEvent :=
  if ptr = 0 then []
  else [.lock .malloc_mutex, .unlock .malloc_mutex]

/-- Number of arena-mutex acquisitions in a trace. -/
def arenaLockCount (t : List LockEvent) : Nat :=
  t.countP (fun e => match e with
    | .lock (.arena_mutex _) => true
    | _ => false)

/-- Replay a trace against a stack of held mutexes: locks push, unlocks
must match the top of the stack. -/
def lockReplay : List MutexId → List LockEvent → Option (List MutexId)
  | held, [] => some held
  | held, .lock m :: rest => lockReplay (m :: held) rest
  | held, .unlock m :: rest =>
    match held with
    | m' :: held' => if m = m' then lockReplay held' rest else none
    | [] => none

/-- LIFO lock discipline: the replay succeeds and ends with no mutex
held. -/
def WellNested (t : List LockEvent) : Prop := lockReplay [] t = some []

/-- A bitmap state exhibiting the approximate first-fit of claim C3:
word 0 is `0b101` (blocks 0 and 2 used), every other word is all-ones. -/
def c3_state : Arena :=
  { heap := 2 ^ 40
    mem := fun _ => 0
    bitmap := 5 :: List.replicate 15 UINT64_MAX
    heap_size := 16384
    bitmap_size := 16
    allocated_blocks := 0 }

/-! ## Bit-level characterization of the bitmap operations -/

theorem is_bit_set_eq_testBit (a : Arena) (j : Nat) :
    is_bit_set a j = (a.bitmap.getD (j / 64) 0).testBit (j % 64) := by
  unfold is_bit_set
  rw [Nat.one_shiftLeft, Nat.and_two_pow]
  cases h : (a.bitmap.getD (j / 64) 0).testBit (j % 64) with
  | false => simp [h]
  | true =>
    have h2 : (0:Nat) < 2 ^ (j % 64) := Nat.pos_pow_of_pos (j % 64) (by norm_num)
    simp [h, Nat.pos_iff_ne_zero.mp h2]

theorem word_decomp (widx t : Nat) (ht : t < 64) :
    (64 * widx + t) / 64 = widx ∧ (64 * widx + t) % 64 = t := by
  omega

theorem is_bit_set_word (a : Arena) (widx t : Nat) (ht : t < 64) :
    is_bit_set a (64 * widx + t) = (a.bitmap.getD widx 0).testBit t := by
  rw [is_bit_set_eq_testBit, (word_decomp widx t ht).1, (word_decomp widx t ht).2]

theorem length_set_bit (a : Arena) (i : Nat) :
    (set_bit a i).bitmap.length = a.bitmap.length := by
  simp [set_bit]

theorem length_clear_bit (a : Arena) (i : Nat) :
    (clear_bit a i).bitmap.length = a.bitmap.length := by
  simp [clear_bit]

theorem fields_set_bit (a : Arena) (i : Nat) :
    (set_bit a i).heap = a.heap ∧ (set_bit a i).mem = a.mem ∧
    (set_bit a i).heap_size = a.heap_size ∧
    (set_bit a i).bitmap_size = a.bitmap_size ∧
    (set_bit a i).allocated_blocks = a.allocated_blocks := by
  simp [set_bit]

theorem fields_clear_bit (a : Arena) (i : Nat) :
    (clear_bit a i).heap = a.heap ∧ (clear_bit a i).mem = a.mem ∧
    (clear_bit a i).heap_size = a.heap_size ∧
    (clear_bit a i).bitmap_size = a.bitmap_size ∧
    (clear_bit a i).allocated_blocks = a.allocated_blocks := by
  simp [clear_bit]

theorem getD_set_bit (a : Arena) (i widx : Nat) :
    (set_bit a i).bitmap.getD widx 0 =
      if widx = i / 64 ∧ i / 64 < a.bitmap.length then
        a.bitmap.getD (i / 64) 0 ||| 2 ^ (i % 64)
      else a.bitmap.getD widx 0 := by
  simp only [set_bit, Nat.one_shiftLeft, List.getD_eq_getElem?_getD]
  by_cases hw : widx = i / 64
  · subst hw
    by_cases hl : i / 64 < a.bitmap.length
    · simp [List.getElem?_set_self hl, hl]
    · rw [List.set_eq_of_length_le (by omega)]
      simp [hl]
  · simp [List.getElem?_set_ne (Ne.symm hw), hw]

theorem getD_clear_bit (a : Arena) (i widx : Nat) :
    (clear_bit a i).bitmap.getD widx 0 =
      if widx = i / 64 ∧ i / 64 < a.bitmap.length then
        a.bitmap.getD (i / 64) 0 &&& compl64 (2 ^ (i % 64))
      else a.bitmap.getD widx 0 := by
  simp only [clear_bit, Nat.one_shiftLeft, List.getD_eq_getElem?_getD]
  by_cases hw : widx = i / 64
  · subst hw
    by_cases hl : i / 64 < a.bitmap.length
    · simp [List.getElem?_set_self hl, hl]
    · rw [List.set_eq_of_length_le (by omega)]
      simp [hl]
  · simp [List.getElem?_set_ne (Ne.symm hw), hw]

/-- Setting bit `i` flips exactly bit `i` to one (provided the word holding
bit `i` is inside the bitmap). -/
theorem is_bit_set_set_bit (a : Arena) (i j : Nat)
    (hl : i / 64 < a.bitmap.length) :
    is_bit_set (set_bit a i) j = (is_bit_set a j || decide (j = i)) := by
  rw [is_bit_set_eq_testBit, is_bit_set_eq_testBit, getD_set_bit]
  by_cases hw : j / 64 = i / 64
  · simp only [hw, hl, and_self, if_true, Nat.testBit_or, Nat.testBit_two_pow]
    rw [decide_eq_decide.mpr (show i % 64 = j % 64 ↔ j = i by omega)]
  · have hji : decide (j = i) = false := decide_eq_false (by omega)
    simp [hw, hji]

/-- Clearing bit `i` flips exactly bit `i` to zero. -/
theorem is_bit_set_clear_bit (a : Arena) (i j : Nat)
    (hl : i / 64 < a.bitmap.length) :
    is_bit_set (clear_bit a i) j = (is_bit_set a j && !decide (j = i)) := by
  rw [is_bit_set_eq_testBit, is_bit_set_eq_testBit, getD_clear_bit]
  by_cases hw : j / 64 = i / 64
  · simp only [hw, hl, and_self, if_true, compl64, UINT64_MAX, Nat.testBit_and,
      Nat.testBit_xor, Nat.testBit_two_pow, Nat.testBit_two_pow_sub_one]
    have h64 : decide (j % 64 < 64) = true :=
      decide_eq_true (Nat.mod_lt _ (by norm_num))
    rw [decide_eq_decide.mpr (show i % 64 = j % 64 ↔ j = i by omega), h64,
      Bool.xor_true]
  · have hji : decide (j = i) = false := decide_eq_false (by omega)
    simp [hw, hji]

theorem length_set_bits (st n : Nat) : ∀ a : Arena,
    (set_bits a st n).bitmap.length = a.bitmap.length := by
  induction n generalizing st with
  | zero => intro a; rfl
  | succ n ih =>
    intro a
    show (set_bits (set_bit a st) (st + 1) n).bitmap.length = _
    rw [ih (st + 1) (set_bit a st), length_set_bit]

theorem length_clear_bits (st n : Nat) : ∀ a : Arena,
    (clear_bits a st n).bitmap.length = a.bitmap.length := by
  induction n generalizing st with
  | zero => intro a; rfl
  | succ n ih =>
    intro a
    show (clear_bits (clear_bit a st) (st + 1) n).bitmap.length = _
    rw [ih (st + 1) (clear_bit a st), length_clear_bit]

theorem fields_set_bits (st n : Nat) : ∀ a : Arena,
    (set_bits a st n).heap = a.heap ∧ (set_bits a st n).mem = a.mem ∧
    (set_bits a st n).heap_size = a.heap_size ∧
    (set_bits a st n).bitmap_size = a.bitmap_size ∧
    (set_bits a st n).allocated_blocks = a.allocated_blocks := by
  induction n generalizing st with
  | zero => intro a; exact ⟨rfl, rfl, rfl, rfl, rfl⟩
  | succ n ih =>
    intro a
    have h2 := ih (st + 1) (set_bit a st)
    have h1 := fields_set_bit a st
    exact ⟨h2.1.trans h1.1, h2.2.1.trans h1.2.1, h2.2.2.1.trans h1.2.2.1,
      h2.2.2.2.1.trans h1.2.2.2.1, h2.2.2.2.2.trans h1.2.2.2.2⟩

theorem fields_clear_bits (st n : Nat) : ∀ a : Arena,
    (clear_bits a st n).heap = a.heap ∧ (clear_bits a st n).mem = a.mem ∧
    (clear_bits a st n).heap_size = a.heap_size ∧
    (clear_bits a st n).bitmap_size = a.bitmap_size ∧
    (clear_bits a st n).allocated_blocks = a.allocated_blocks := by
  induction n generalizing st with
  | zero => intro a; exact ⟨rfl, rfl, rfl, rfl, rfl⟩
  | succ n ih =>
    intro a
    have h2 := ih (st + 1) (clear_bit a st)
    have h1 := fields_clear_bit a st
    exact ⟨h2.1.trans h1.1, h2.2.1.trans h1.2.1, h2.2.2.1.trans h1.2.2.1,
      h2.2.2.2.1.trans h1.2.2.2.1, h2.2.2.2.2.trans h1.2.2.2.2⟩

/-- The marking loop sets exactly the bits of the run `[st, st + n)`. -/
theorem is_bit_set_set_bits (st n : Nat) : ∀ (a : Arena) (j : Nat),
    st + n ≤ 64 * a.bitmap.length →
    is_bit_set (set_bits a st n) j =
      (is_bit_set a j || decide (st ≤ j ∧ j < st + n)) := by
  induction n generalizing st with
  | zero =>
    intro a j _
    show is_bit_set a j = _
    rw [decide_eq_false (show ¬(st ≤ j ∧ j < st + 0) by omega), Bool.or_false]
  | succ n ih =>
    intro a j hb
    have hstl : st / 64 < a.bitmap.length := by omega
    show is_bit_set (set_bits (set_bit a st) (st + 1) n) j = _
    rw [ih (st + 1) (set_bit a st) j (by rw [length_set_bit]; omega),
      is_bit_set_set_bit a st j hstl]
    cases h1 : is_bit_set a j with
    | true => simp
    | false =>
      simp only [Bool.false_or]
      by_cases hA : j = st <;> by_cases hB : st + 1 ≤ j ∧ j < st + 1 + n <;>
        by_cases hC : st ≤ j ∧ j < st + (n + 1) <;>
          simp [hA, hB, hC] <;> omega

/-- The clearing loop clears exactly the bits of the run `[st, st + n)`. -/
theorem is_bit_set_clear_bits (st n : Nat) : ∀ (a : Arena) (j : Nat),
    st + n ≤ 64 * a.bitmap.length →
    is_bit_set (clear_bits a st n) j =
      (is_bit_set a j && !decide (st ≤ j ∧ j < st + n)) := by
  induction n generalizing st with
  | zero =>
    intro a j _
    show is_bit_set a j = _
    rw [decide_eq_false (show ¬(st ≤ j ∧ j < st + 0) by omega), Bool.not_false,
      Bool.and_true]
  | succ n ih =>
    intro a j hb
    have hstl : st / 64 < a.bitmap.length := by omega
    show is_bit_set (clear_bits (clear_bit a st) (st + 1) n) j = _
    rw [ih (st + 1) (clear_bit a st) j (by rw [length_clear_bit]; omega),
      is_bit_set_clear_bit a st j hstl]
    cases h1 : is_bit_set a j with
    | false => simp
    | true =>
      simp only [Bool.true_and]
      by_cases hA : j = st <;> by_cases hB : st + 1 ≤ j ∧ j < st + 1 + n <;>
        by_cases hC : st ≤ j ∧ j < st + (n + 1) <;>
          simp [hA, hB, hC] <;> omega

theorem words_lt_set_bit (a : Arena) (i : Nat)
    (hw : ∀ w ∈ a.bitmap, w < U64) : ∀ w ∈ (set_bit a i).bitmap, w < U64 := by
  intro w hmem
  rcases List.mem_or_eq_of_mem_set hmem with h | h
  · exact hw w h
  · subst h
    have h1 : a.bitmap.getD (i / 64) 0 < U64 := by
      rcases h2 : a.bitmap[i / 64]? with _ | v
      · simp only [List.getD_eq_getElem?_getD, h2, Option.getD_none, U64]
        exact Nat.pos_pow_of_pos 64 (by norm_num)
      · have := hw v (List.getElem?_mem h2)
        simpa [List.getD_eq_getElem?_getD, h2] using this
    have h2 : (1 <<< (i % 64) : Nat) < U64 := by
      rw [Nat.one_shiftLeft]
      exact Nat.pow_lt_pow_right (by norm_num) (Nat.mod_lt _ (by norm_num))
    exact Nat.or_lt_two_pow h1 h2

theorem words_lt_clear_bit (a : Arena) (i : Nat)
    (hw : ∀ w ∈ a.bitmap, w < U64) : ∀ w ∈ (clear_bit a i).bitmap, w < U64 := by
  intro w hmem
  rcases List.mem_or_eq_of_mem_set hmem with h | h
  · exact hw w h
  · subst h
    have h1 : a.bitmap.getD (i / 64) 0 < U64 := by
      rcases h2 : a.bitmap[i / 64]? with _ | v
      · simp only [List.getD_eq_getElem?_getD, h2, Option.getD_none, U64]
        exact Nat.pos_pow_of_pos 64 (by norm_num)
      · have := hw v (List.getElem?_mem h2)
        simpa [List.getD_eq_getElem?_getD, h2] using this
    exact Nat.lt_of_le_of_lt Nat.and_le_left h1

theorem words_lt_set_bits (st n : Nat) : ∀ a : Arena,
    (∀ w ∈ a.bitmap, w < U64) → ∀ w ∈ (set_bits a st n).bitmap, w < U64 := by
  induction n generalizing st with
  | zero => intro a hw; exact hw
  | succ n ih =>
    intro a hw
    exact ih (st + 1) (set_bit a st) (words_lt_set_bit a st hw)

theorem words_lt_clear_bits (st n : Nat) : ∀ a : Arena,
    (∀ w ∈ a.bitmap, w < U64) → ∀ w ∈ (clear_bits a st n).bitmap, w < U64 := by
  induction n generalizing st with
  | zero => intro a hw; exact hw
  | succ n ih =>
    intro a hw
    exact ih (st + 1) (clear_bit a st) (words_lt_clear_bit a st hw)

/-- The inner run check of `find_free_blocks` succeeds exactly when every
bit of the run is clear. -/
theorem blocks_all_free_iff (a : Arena) (n : Nat) : ∀ st : Nat,
    blocks_all_free a st n = true ↔
      ∀ k, k < n → is_bit_set a (st + k) = false := by
  induction n with
  | zero => intro st; simp [blocks_all_free]
  | succ n ih =>
    intro st
    simp only [blocks_all_free, Bool.and_eq_true, Bool.not_eq_true']
    constructor
    · rintro ⟨h0, hrest⟩ k hk
      cases k with
      | zero => simpa using h0
      | succ k =>
        have := (ih (st + 1)).mp hrest k (by omega)
        rw [show st + (k + 1) = st + 1 + k by omega]
        exact this
    · intro h
      refine ⟨by simpa using h 0 (by omega), (ih (st + 1)).mpr ?_⟩
      intro k hk
      rw [show st + 1 + k = st + (k + 1) by omega]
      exact h (k + 1) (by omega)

/-! ## Count-trailing-zeros, find-first-set and the first free bit -/

theorem getD_lt_U64 (a : Arena) (hw : ∀ w ∈ a.bitmap, w < U64) (bi : Nat) :
    a.bitmap.getD bi 0 < U64 := by
  rcases h2 : a.bitmap[bi]? with _ | v
  · simp only [List.getD_eq_getElem?_getD, h2, Option.getD_none, U64]
    exact Nat.pos_pow_of_pos 64 (by norm_num)
  · have := hw v (List.getElem?_mem h2)
    simpa [List.getD_eq_getElem?_getD, h2] using this

theorem ctzAux_le (fuel : Nat) : ∀ n, ctzAux fuel n ≤ fuel := by
  induction fuel with
  | zero => intro n; exact Nat.le_refl 0
  | succ fuel ih =>
    intro n
    show (if n % 2 = 1 then 0 else 1 + ctzAux fuel (n / 2)) ≤ fuel + 1
    split
    · omega
    · have := ih (n / 2); omega

theorem ctzAux_eq (fuel : Nat) : ∀ n k, k < fuel → n.testBit k = true →
    (∀ i, i < k → n.testBit i = false) → ctzAux fuel n = k := by
  induction fuel with
  | zero => intro n k hk _ _; omega
  | succ fuel ih =>
    intro n k hk h1 h2
    show (if n % 2 = 1 then 0 else 1 + ctzAux fuel (n / 2)) = k
    cases k with
    | zero =>
      have : n % 2 = 1 := by simpa using h1
      simp [this]
    | succ k =>
      have h0 : n.testBit 0 = false := h2 0 (by omega)
      have hodd : ¬n % 2 = 1 := by simpa using h0
      rw [if_neg hodd, ih (n / 2) k (by omega)
        (by rw [Nat.testBit_div_two]; exact h1)
        (fun i hi => by rw [Nat.testBit_div_two]; exact h2 (i + 1) (by omega))]
      omega

theorem leastClearAux_eq (w : Nat) (fuel : Nat) : ∀ j k, j ≤ k → k < j + fuel →
    w.testBit k = false → (∀ i, j ≤ i → i < k → w.testBit i = true) →
    leastClearAux w fuel j = k := by
  induction fuel with
  | zero => intro j k _ _ _ _; omega
  | succ fuel ih =>
    intro j k hjk hk h1 h2
    show (if w.testBit j = false then j else leastClearAux w fuel (j + 1)) = k
    by_cases hj : w.testBit j = false
    · rw [if_pos hj]
      by_contra hne
      have : w.testBit j = true := h2 j (Nat.le_refl j) (by omega)
      rw [hj] at this
      exact Bool.false_ne_true this
    · rw [if_neg hj]
      have hkj : k ≠ j := by
        intro h; rw [h] at h1; exact hj h1
      exact ih (j + 1) k (by omega) (by omega) h1
        (fun i hi1 hi2 => h2 i (by omega) hi2)

theorem leastClearAux_all_set (w : Nat) (fuel : Nat) : ∀ j,
    (∀ i, j ≤ i → i < j + fuel → w.testBit i = true) →
    leastClearAux w fuel j = j + fuel := by
  induction fuel with
  | zero => intro j _; rfl
  | succ fuel ih =>
    intro j h
    show (if w.testBit j = false then j else leastClearAux w fuel (j + 1)) = _
    rw [if_neg (by simp [h j (Nat.le_refl j) (by omega)]),
      ih (j + 1) (fun i h1 h2 => h i (by omega) (by omega))]
    omega

theorem ffsAux_eq (fuel : Nat) : ∀ n j k, j ≤ k → k < j + fuel →
    n.testBit k = true → (∀ i, j ≤ i → i < k → n.testBit i = false) →
    ffsAux fuel n j = k + 1 := by
  induction fuel with
  | zero => intro n j k _ _ _ _; omega
  | succ fuel ih =>
    intro n j k hjk hk h1 h2
    show (if n.testBit j then j + 1 else ffsAux fuel n (j + 1)) = k + 1
    by_cases hj : n.testBit j
    · rw [if_pos hj]
      by_contra hne
      have : n.testBit j = false := h2 j (Nat.le_refl j) (by omega)
      rw [this] at hj
      exact Bool.false_ne_true hj
    · rw [if_neg hj]
      have hkj : k ≠ j := by
        intro h; rw [h] at h1; exact hj h1
      exact ih n (j + 1) k (by omega) (by omega) h1
        (fun i hi1 hi2 => h2 i (by omega) hi2)

theorem testBit_UINT64_MAX (i : Nat) : UINT64_MAX.testBit i = decide (i < 64) := by
  rw [show UINT64_MAX = 2 ^ 64 - 1 from rfl]
  exact Nat.testBit_two_pow_sub_one 64 i

theorem testBit_compl64 (w j : Nat) :
    (compl64 w).testBit j = ((w.testBit j).xor (decide (j < 64))) := by
  rw [compl64, Nat.testBit_xor, testBit_UINT64_MAX]

theorem compl64_lt_U64 (w : Nat) (hw : w < U64) : compl64 w < U64 := by
  have : (2:Nat) ^ 64 - 1 < 2 ^ 64 := by norm_num
  exact Nat.xor_lt_two_pow hw this

theorem compl64_ne_zero (w : Nat) (hmax : w ≠ UINT64_MAX) : compl64 w ≠ 0 := by
  intro h
  exact hmax (Nat.xor_eq_zero.mp h)

theorem exists_testBit_lt_64 (m : Nat) (h0 : m ≠ 0) (hm : m < U64) :
    ∃ j, j < 64 ∧ m.testBit j = true := by
  obtain ⟨i, hi⟩ := Nat.ne_zero_implies_bit_true h0
  refine ⟨i, ?_, hi⟩
  by_contra h
  have := Nat.testBit_implies_ge hi
  have h2 : (2:Nat) ^ 64 ≤ 2 ^ i := Nat.pow_le_pow_right (by norm_num) (by omega)
  rw [U64] at hm
  omega

/-- The two bit-scanning primitives pick the same candidate bit: on the
complement of a not-all-ones word, `ffsll - 1` equals `ctzll`, and both
equal the word's lowest clear bit. -/
theorem ctz64_eq_least_set (m : Nat) (h0 : m ≠ 0) (hm : m < U64) :
    ∃ k, k < 64 ∧ m.testBit k = true ∧ (∀ i, i < k → m.testBit i = false) ∧
      ctz64 m = k ∧ ffs64 m = k + 1 := by
  have hex : ∃ j, m.testBit j = true := by
    obtain ⟨j, _, hj⟩ := exists_testBit_lt_64 m h0 hm
    exact ⟨j, hj⟩
  obtain ⟨j0, hj0lt, hj0⟩ := exists_testBit_lt_64 m h0 hm
  refine ⟨Nat.find hex, ?_, Nat.find_spec hex, ?_, ?_, ?_⟩
  · exact Nat.lt_of_le_of_lt (Nat.find_min' hex hj0) hj0lt
  · intro i hi
    have := Nat.find_min hex hi
    simpa using this
  · exact ctzAux_eq 64 m (Nat.find hex)
      (Nat.lt_of_le_of_lt (Nat.find_min' hex hj0) hj0lt) (Nat.find_spec hex)
      (fun i hi => by simpa using Nat.find_min hex hi)
  · exact ffsAux_eq 64 m 0 (Nat.find hex) (Nat.zero_le _)
      (by have := Nat.lt_of_le_of_lt (Nat.find_min' hex hj0) hj0lt; omega)
      (Nat.find_spec hex)
      (fun i _ hi => by simpa using Nat.find_min hex hi)

theorem ctz64_compl_eq_leastClearBit (w : Nat) (hw : w < U64) :
    ctz64 (compl64 w) = leastClearBit w := by
  by_cases hmax : w = UINT64_MAX
  · subst hmax
    have h1 : compl64 UINT64_MAX = 0 := by
      simp [compl64]
    rw [h1]
    have h2 : ctz64 0 = 64 := by decide
    have h3 : leastClearBit UINT64_MAX = 64 := by
      have := leastClearAux_all_set UINT64_MAX 64 0
        (fun i _ h2 => by rw [testBit_UINT64_MAX]; exact decide_eq_true (by omega))
      simpa [leastClearBit] using this
    rw [h2, h3]
  · obtain ⟨k, hk64, hbit, hbelow, hctz, _⟩ :=
      ctz64_eq_least_set (compl64 w) (compl64_ne_zero w hmax) (compl64_lt_U64 w hw)
    rw [hctz]
    have hwk : w.testBit k = false := by
      have hb := hbit
      rw [testBit_compl64, decide_eq_true hk64] at hb
      cases h : w.testBit k
      · rfl
      · rw [h] at hb; simpa using hb
    have hbel : ∀ i, 0 ≤ i → i < k → w.testBit i = true := by
      intro i _ hik
      have hc := hbelow i hik
      rw [testBit_compl64, decide_eq_true (by omega : i < 64)] at hc
      cases h : w.testBit i
      · rw [h] at hc; simpa using hc
      · rfl
    exact (leastClearAux_eq w 64 0 k (Nat.zero_le k) (by omega) hwk hbel).symm

/-! ## The word scan of find_free_blocks -/

theorem ffsAux_le (fuel : Nat) : ∀ n j, ffsAux fuel n j ≤ j + fuel := by
  induction fuel with
  | zero => intro n j; exact Nat.zero_le _
  | succ fuel ih =>
    intro n j
    show (if n.testBit j then j + 1 else ffsAux fuel n (j + 1)) ≤ j + (fuel + 1)
    split
    · omega
    · have := ih n (j + 1); omega

theorem ffs64_le (m : Nat) : ffs64 m ≤ 64 := by
  have := ffsAux_le 64 m 0
  simpa [ffs64] using this

theorem ctz64_le (m : Nat) : ctz64 m ≤ 64 := ctzAux_le 64 m

theorem scan_word_some (a : Arena) (n bi r : Nat)
    (h : scan_word a n bi = some r) :
    a.bitmap.getD bi 0 ≠ UINT64_MAX ∧ r + n ≤ a.heap_size / BLOCK_SIZE ∧
    blocks_all_free a r n = true ∧ ∃ f, f ≤ 64 ∧ r = bi * 64 + f := by
  simp only [scan_word] at h
  split at h
  · simp at h
  · rename_i h1
    split at h
    · split at h
      · rename_i h2
        injection h with h3
        subst h3
        exact ⟨h1, h2.1, h2.2, _, ctz64_le _, rfl⟩
      · simp at h
    · split at h
      · rename_i h2
        injection h with h3
        subst h3
        refine ⟨h1, h2.1, h2.2, _, ?_, rfl⟩
        have := ffs64_le (compl64 (a.bitmap.getD bi 0))
        omega
      · simp at h

theorem scan_words_cons (a : Arena) (n bi : Nat) (rest : List Nat) :
    scan_words a n (bi :: rest) =
      (match scan_word a n bi with
       | some s => s
       | none => scan_words a n rest) := rfl

theorem scan_words_cases (a : Arena) (n : Nat) : ∀ l : List Nat,
    (scan_words a n l = SIZE_MAX ∧ ∀ bi ∈ l, scan_word a n bi = none) ∨
    (∃ bi ∈ l, scan_word a n bi = some (scan_words a n l)) := by
  intro l
  induction l with
  | nil => exact Or.inl ⟨rfl, by simp⟩
  | cons bi rest ih =>
    cases hsw : scan_word a n bi with
    | some s =>
      refine Or.inr ⟨bi, by simp, ?_⟩
      rw [scan_words_cons, hsw]
    | none =>
      rw [scan_words_cons, hsw]
      rcases ih with ⟨h1, h2⟩ | ⟨bj, hbj, h3⟩
      · refine Or.inl ⟨h1, ?_⟩
        intro bk hbk
        rcases List.mem_cons.mp hbk with h | h
        · subst h; exact hsw
        · exact h2 bk h
      · exact Or.inr ⟨bj, List.mem_cons_of_mem bi hbj, h3⟩

/-- What a non-`SIZE_MAX` result of `find_free_blocks` guarantees: the run
fits under the block bound, every bit of the run is clear, and the start is
a per-word candidate of a scanned word. -/
theorem find_free_blocks_sound (a : Arena) (n r : Nat)
    (h : find_free_blocks a n = r) (hr : r ≠ SIZE_MAX) :
    r + n ≤ a.heap_size / BLOCK_SIZE ∧
    (∀ k, k < n → is_bit_set a (r + k) = false) ∧
    ∃ bi f, bi < a.bitmap_size / sizeof_uint64_t ∧ f ≤ 64 ∧ r = bi * 64 + f := by
  rcases scan_words_cases a n (List.range (a.bitmap_size / sizeof_uint64_t)) with
    ⟨h1, _⟩ | ⟨bi, hbi, h2⟩
  · rw [find_free_blocks] at h
    rw [h1] at h
    exact absurd h.symm hr
  · rw [find_free_blocks] at h
    rw [h] at h2
    obtain ⟨_, hb, hfree, f, hf, hrf⟩ := scan_word_some a n bi r h2
    exact ⟨hb, (blocks_all_free_iff a n r).mp hfree, bi, f,
      List.mem_range.mp hbi, hf, hrf⟩

theorem is_bit_set_congr (a b : Arena) (hbm : a.bitmap = b.bitmap) (j : Nat) :
    is_bit_set a j = is_bit_set b j := by
  simp [is_bit_set, hbm]

theorem blocks_all_free_congr (a b : Arena) (hbm : a.bitmap = b.bitmap)
    (n : Nat) : ∀ st, blocks_all_free a st n = blocks_all_free b st n := by
  induction n with
  | zero => intro st; rfl
  | succ n ih =>
    intro st
    show (!is_bit_set a st && blocks_all_free a (st + 1) n) = _
    rw [is_bit_set_congr a b hbm, ih (st + 1)]
    rfl

theorem scan_word_congr (a b : Arena) (hbm : a.bitmap = b.bitmap)
    (hhs : a.heap_size = b.heap_size) (n bi : Nat) :
    scan_word a n bi = scan_word b n bi := by
  simp only [scan_word, hbm, hhs, blocks_all_free_congr a b hbm]

/-- `find_free_blocks` depends only on the bitmap and the two sizes. -/
theorem find_free_blocks_congr (a b : Arena) (hbm : a.bitmap = b.bitmap)
    (hhs : a.heap_size = b.heap_size) (hbs : a.bitmap_size = b.bitmap_size)
    (n : Nat) : find_free_blocks a n = find_free_blocks b n := by
  rw [find_free_blocks, find_free_blocks, hbs]
  generalize List.range (b.bitmap_size / sizeof_uint64_t) = l
  induction l with
  | nil => rfl
  | cons bi rest ih =>
    rw [scan_words_cons, scan_words_cons, scan_word_congr a b hbm hhs n bi, ih]

theorem scan_word_eq_ctz (a : Arena) (n bi : Nat)
    (hw : a.bitmap.getD bi 0 < U64) :
    scan_word a n bi = scan_word_ctz a n bi := by
  simp only [scan_word, scan_word_ctz]
  by_cases h1 : a.bitmap.getD bi 0 = UINT64_MAX
  · rw [if_pos h1, if_pos h1]
  · obtain ⟨k, _, _, _, hctz, hffs⟩ :=
      ctz64_eq_least_set (compl64 (a.bitmap.getD bi 0))
        (compl64_ne_zero _ h1) (compl64_lt_U64 _ hw)
    have heq : ffs64 (compl64 (a.bitmap.getD bi 0)) - 1 =
        ctz64 (compl64 (a.bitmap.getD bi 0)) := by
      rw [hctz, hffs]
      omega
    rw [if_neg h1, if_neg h1]
    split
    · rfl
    · rw [heq]

/-- The head case of the amended candidate description: `scan_word` accepts
exactly the lowest-clear-bit candidate under the amended conditions. -/
theorem scan_word_amended (a : Arena) (n bi : Nat)
    (hw : a.bitmap.getD bi 0 < U64) :
    scan_word a n bi =
      (if a.bitmap.getD bi 0 ≠ UINT64_MAX ∧
          bi * 64 + leastClearBit (a.bitmap.getD bi 0) + n ≤
            a.heap_size / BLOCK_SIZE ∧
          (∀ k, k < n → is_bit_set a
            (bi * 64 + leastClearBit (a.bitmap.getD bi 0) + k) = false) then
        some (bi * 64 + leastClearBit (a.bitmap.getD bi 0))
      else none) := by
  rw [scan_word_eq_ctz a n bi hw]
  simp only [scan_word_ctz]
  have hc : ctz64 (compl64 (a.bitmap.getD bi 0)) =
      leastClearBit (a.bitmap.getD bi 0) := ctz64_compl_eq_leastClearBit _ hw
  by_cases h1 : a.bitmap.getD bi 0 = UINT64_MAX
  · rw [if_pos h1, if_neg (fun hcon => hcon.1 h1)]
  · rw [if_neg h1, hc]
    refine if_congr ?_ rfl rfl
    constructor
    · intro hcl
      exact ⟨h1, hcl.1, (blocks_all_free_iff a n _).mp hcl.2⟩
    · intro hcr
      exact ⟨hcr.2.1, (blocks_all_free_iff a n _).mpr hcr.2.2⟩

theorem amended_scan_cons (a : Arena) (n bi : Nat) (rest : List Nat) :
    amended_scan a n (bi :: rest) =
      (if a.bitmap.getD bi 0 ≠ UINT64_MAX ∧
          bi * 64 + leastClearBit (a.bitmap.getD bi 0) + n ≤
            a.heap_size / BLOCK_SIZE ∧
          (∀ k, k < n → is_bit_set a
            (bi * 64 + leastClearBit (a.bitmap.getD bi 0) + k) = false) then
        bi * 64 + leastClearBit (a.bitmap.getD bi 0)
      else amended_scan a n rest) := rfl

theorem scan_words_eq_amended (a : Arena) (n : Nat)
    (hw : ∀ w ∈ a.bitmap, w < U64) : ∀ l : List Nat,
    scan_words a n l = amended_scan a n l := by
  intro l
  induction l with
  | nil => rfl
  | cons bi rest ih =>
    rw [scan_words_cons, scan_word_amended a n bi (getD_lt_U64 a hw bi),
      amended_scan_cons]
    by_cases hC : a.bitmap.getD bi 0 ≠ UINT64_MAX ∧
        bi * 64 + leastClearBit (a.bitmap.getD bi 0) + n ≤
          a.heap_size / BLOCK_SIZE ∧
        (∀ k, k < n → is_bit_set a
          (bi * 64 + leastClearBit (a.bitmap.getD bi 0) + k) = false)
    · rw [if_pos hC, if_pos hC]
    · rw [if_neg hC, if_neg hC]
      exact ih

/-- `find_free_blocks` coincides with the candidate-per-word description of
the amended claim C3. -/
theorem find_free_blocks_eq_amended (a : Arena) (n : Nat)
    (hw : ∀ w ∈ a.bitmap, w < U64) :
    find_free_blocks a n = amendedFindFreeBlocks a n :=
  scan_words_eq_amended a n hw _

theorem scan_words_ctz_cons (a : Arena) (n bi : Nat) (rest : List Nat) :
    scan_words_ctz a n (bi :: rest) =
      (match scan_word_ctz a n bi with
       | some s => s
       | none => scan_words_ctz a n rest) := rfl

theorem scan_words_eq_ctz (a : Arena) (n : Nat)
    (hw : ∀ w ∈ a.bitmap, w < U64) : ∀ l : List Nat,
    scan_words a n l = scan_words_ctz a n l := by
  intro l
  induction l with
  | nil => rfl
  | cons bi rest ih =>
    rw [scan_words_cons, scan_words_ctz_cons,
      scan_word_eq_ctz a n bi (getD_lt_U64 a hw bi)]
    cases scan_word_ctz a n bi with
    | some s => rfl
    | none => exact ih

/-- The size-class branch of `find_free_blocks` is irrelevant: the variant
that always uses count-trailing-zeros computes the same start block. -/
theorem find_free_blocks_eq_ctz_variant (a : Arena) (n : Nat)
    (hw : ∀ w ∈ a.bitmap, w < U64) :
    find_free_blocks a n = find_free_blocks_ctz a n :=
  scan_words_eq_ctz a n hw _

/-! ## Analysis of the allocation and deallocation paths -/

theorem extend_heap_none (a : Arena) (e : Nat) :
    extend_heap a e none = (none, a) := rfl

theorem allocate_blocks_fst (a : Arena) (st n s : Nat) :
    (allocate_blocks a st n s).fst =
      some (align_size_t (a.heap + st * BLOCK_SIZE) + sizeof_size_t) := by
  obtain ⟨h1, _, _, _, _⟩ := fields_set_bits st n a
  simp only [allocate_blocks, h1]

theorem allocate_blocks_snd (a : Arena) (st n s : Nat) :
    (allocate_blocks a st n s).snd =
      { heap := a.heap
        mem := store a.mem (align_size_t (a.heap + st * BLOCK_SIZE)) s
        bitmap := (set_bits a st n).bitmap
        heap_size := a.heap_size
        bitmap_size := a.bitmap_size
        allocated_blocks := (a.allocated_blocks + n) % U64 } := by
  obtain ⟨h1, h2, h3, h4, h5⟩ := fields_set_bits st n a
  simp only [allocate_blocks, h1, h2, h3, h4, h5]

/-- Success analysis of `tinymalloc`: the returned pointer is the aligned
address of the run found by `find_free_blocks` (after a possible heap
extension) plus one header word, and the final state is the one
`allocate_blocks` and `update_arena_usage` build from it. -/
theorem tinymalloc_some (a : Arena) (s : Nat) (o : Option Nat) (p : Nat)
    (a' : Arena) (h : tinymalloc a s o = (some p, a')) :
    s ≠ 0 ∧ ∃ a1 : Arena,
      (a1 = a ∨ (find_free_blocks a (nblocks s) = SIZE_MAX ∧
        ∃ r e, e ≤ a.heap_size / 4 + nblocks s * BLOCK_SIZE ∧
          extend_heap a e o = (some r, a1))) ∧
      find_free_blocks a1 (nblocks s) ≠ SIZE_MAX ∧
      p = align_size_t (a1.heap + find_free_blocks a1 (nblocks s) * BLOCK_SIZE) +
        sizeof_size_t ∧
      a' = update_arena_usage
        (allocate_blocks a1 (find_free_blocks a1 (nblocks s)) (nblocks s) s).snd
        (nblocks s) := by
  by_cases hs : s = 0
  · rw [tinymalloc, if_pos hs] at h
    simp at h
  · rw [tinymalloc, if_neg hs, allocate_memory] at h
    rcases hta : try_allocate a s o with ⟨r0, a1'⟩
    rw [hta] at h
    cases r0 with
    | none => simp at h
    | some q =>
      simp only [Prod.mk.injEq, Option.some.injEq] at h
      obtain ⟨hqp, ha'⟩ := h
      subst hqp
      refine ⟨hs, ?_⟩
      simp only [try_allocate] at hta
      by_cases hf : find_free_blocks a (nblocks s) = SIZE_MAX
      · rw [if_pos hf] at hta
        rcases hx : extend_heap a
            (if nblocks s * BLOCK_SIZE % U64 > a.heap_size / 4 then
              nblocks s * BLOCK_SIZE % U64
            else a.heap_size / 4) o with ⟨re, aE⟩
        rw [hx] at hta
        cases re with
        | none => simp at hta
        | some rr =>
          have hta2 : (if find_free_blocks aE (nblocks s) = SIZE_MAX then
              ((none : Option Nat), aE)
            else allocate_blocks aE (find_free_blocks aE (nblocks s))
              (nblocks s) s) = (some q, a1') := hta
          by_cases hf2 : find_free_blocks aE (nblocks s) = SIZE_MAX
          · rw [if_pos hf2] at hta2
            simp at hta2
          · rw [if_neg hf2] at hta2
            have hfst := congrArg Prod.fst hta2
            have hsnd := congrArg Prod.snd hta2
            rw [allocate_blocks_fst] at hfst
            simp only at hfst hsnd
            refine ⟨aE, Or.inr ⟨hf, ⟨rr, _, ?_, hx⟩⟩, hf2, ?_, ?_⟩
            · split
              · exact Nat.le_add_left _ _ |>.trans
                  (Nat.add_le_add_left (Nat.mod_le _ _) _) |>.trans (Nat.le_refl _)
              · exact Nat.le_add_right _ _
            · injection hfst with hfst'
              exact hfst'.symm
            · rw [← ha', hsnd]
      · rw [if_neg hf] at hta
        have hfst := congrArg Prod.fst hta
        have hsnd := congrArg Prod.snd hta
        rw [allocate_blocks_fst] at hfst
        simp only at hfst hsnd
        refine ⟨a, Or.inl rfl, hf, ?_, ?_⟩
        · injection hfst with hfst'
          exact hfst'.symm
        · rw [← ha', hsnd]

/-- A failed `tinymalloc` with a failing growth oracle leaves the arena
untouched. -/
theorem tinymalloc_none (a : Arena) (s : Nat) (a' : Arena)
    (h : tinymalloc a s none = (none, a')) : a' = a := by
  by_cases hs : s = 0
  · rw [tinymalloc, if_pos hs] at h
    simp only [Prod.mk.injEq] at h
    exact h.2.symm
  · rw [tinymalloc, if_neg hs, allocate_memory] at h
    rcases hta : try_allocate a s none with ⟨r0, a1'⟩
    rw [hta] at h
    cases r0 with
    | some q => simp at h
    | none =>
      simp only [Prod.mk.injEq] at h
      simp only [try_allocate] at hta
      by_cases hf : find_free_blocks a (nblocks s) = SIZE_MAX
      · rw [if_pos hf, extend_heap_none] at hta
        simp only [Prod.mk.injEq] at hta
        rw [← h.2, ← hta.2]
      · rw [if_neg hf] at hta
        have hfst := congrArg Prod.fst hta
        rw [allocate_blocks_fst] at hfst
        simp at hfst

theorem div8_mul8_eq_shift (y : Nat) : y / 8 * 8 = (y >>> 3) <<< 3 := by
  rw [Nat.shiftRight_eq_div_pow, Nat.shiftLeft_eq]

/-- The alignment mask computes rounding up to a multiple of the header
word: `(x + 7) & ~7 = ((x + 7) / 8) * 8` in 64-bit arithmetic. -/
theorem align_size_t_eq (x : Nat) : align_size_t x = (x + 7) % U64 / 8 * 8 := by
  rw [align_size_t, show (sizeof_size_t - 1 : Nat) = 7 from rfl]
  apply Nat.eq_of_testBit_eq
  intro j
  have h7b : Nat.testBit 7 j = decide (j < 3) := by
    rw [show (7 : Nat) = 2 ^ 3 - 1 by norm_num, Nat.testBit_two_pow_sub_one]
  rw [Nat.testBit_and, Nat.testBit_xor, testBit_UINT64_MAX, h7b,
    div8_mul8_eq_shift, Nat.testBit_shiftLeft, Nat.testBit_shiftRight]
  have hylt : (x + 7) % U64 < 2 ^ 64 := by
    apply Nat.mod_lt
    rw [U64]
    norm_num
  by_cases h3 : j < 3
  · have h64 : j < 64 := by omega
    simp [decide_eq_true h3, decide_eq_true h64, decide_eq_false (by omega : ¬3 ≤ j)]
  · by_cases h64 : j < 64
    · have hj : 3 + (j - 3) = j := by omega
      rw [decide_eq_true (by omega : 3 ≤ j), hj,
        decide_eq_true h64, decide_eq_false h3]
      simp
    · have hbit : ((x + 7) % U64).testBit j = false := by
        apply Nat.testBit_lt_two_pow
        calc (x + 7) % U64 < 2 ^ 64 := hylt
          _ ≤ 2 ^ j := Nat.pow_le_pow_right (by norm_num) (by omega)
      have hbit' : ((x + 7) % U64).testBit (3 + (j - 3)) = false := by
        rw [show 3 + (j - 3) = j by omega]
        exact hbit
      rw [hbit, hbit', decide_eq_false h64, decide_eq_false h3]
      simp

/-- On an 8-byte-aligned address the source's alignment step is the
identity. -/
theorem align_size_t_of_aligned (x : Nat) (h8 : x % 8 = 0) (hx : x + 7 < U64) :
    align_size_t x = x := by
  rw [align_size_t_eq, Nat.mod_eq_of_lt hx]
  omega

theorem free_blocks_bitmap (a : Arena) (st n : Nat) :
    (free_blocks a st n).bitmap = (clear_bits a st n).bitmap := rfl

theorem free_blocks_fields (a : Arena) (st n : Nat) :
    (free_blocks a st n).heap = a.heap ∧ (free_blocks a st n).mem = a.mem ∧
    (free_blocks a st n).heap_size = a.heap_size ∧
    (free_blocks a st n).bitmap_size = a.bitmap_size := by
  obtain ⟨h1, h2, h3, h4, _⟩ := fields_clear_bits st n a
  exact ⟨h1, h2, h3, h4⟩

/-- Deallocation of a pointer `heap + BLOCK_SIZE*st + sizeof(size_t)` whose
header word still holds `s` frees exactly the run `[st, st + nblocks s)`. -/
theorem tinyfree_inside (a : Arena) (st s : Nat)
    (hst : st + nblocks s ≤ a.heap_size / BLOCK_SIZE)
    (hn : 1 ≤ nblocks s)
    (hmem : a.mem (a.heap + st * BLOCK_SIZE) = s) :
    tinyfree a (a.heap + st * BLOCK_SIZE + sizeof_size_t) =
      free_blocks a st (nblocks s) := by
  have hB : (BLOCK_SIZE : Nat) = 16 := rfl
  have hS : (sizeof_size_t : Nat) = 8 := rfl
  have hdiv : a.heap_size / BLOCK_SIZE * BLOCK_SIZE ≤ a.heap_size :=
    Nat.div_mul_le_self _ _
  have hin : a.heap ≤ a.heap + st * BLOCK_SIZE + sizeof_size_t ∧
      a.heap + st * BLOCK_SIZE + sizeof_size_t < a.heap + a.heap_size := by
    constructor
    · omega
    · have : (st + 1) * BLOCK_SIZE ≤ a.heap_size / BLOCK_SIZE * BLOCK_SIZE :=
        Nat.mul_le_mul_right _ (by omega)
      rw [hB] at this hdiv ⊢
      rw [hS]
      omega
  have hne : a.heap + st * BLOCK_SIZE + sizeof_size_t ≠ 0 := by
    rw [hS]; omega
  have harena : find_arena_for_pointer a
      (a.heap + st * BLOCK_SIZE + sizeof_size_t) = some () := by
    rw [find_arena_for_pointer, if_pos hin]
  rw [tinyfree, if_neg hne, harena]
  show deallocate_memory a (a.heap + st * BLOCK_SIZE + sizeof_size_t) = _
  have hmin : a.heap + st * BLOCK_SIZE + sizeof_size_t - sizeof_size_t =
      a.heap + st * BLOCK_SIZE := by omega
  simp only [deallocate_memory, hmin, hmem]
  have hcast : ((a.heap + st * BLOCK_SIZE : Nat) : Int) - (a.heap : Int) =
      (BLOCK_SIZE : Int) * st := by
    push_cast
    rw [hB]
    push_cast
    ring
  rw [hcast, Int.mul_tdiv_cancel_left _ (by rw [hB]; norm_num : (BLOCK_SIZE : Int) ≠ 0)]
  simp only [Int.toNat_ofNat]
  rw [if_pos hst]

theorem clear_bits_bitmap_congr (st n : Nat) : ∀ a b : Arena,
    a.bitmap = b.bitmap → (clear_bits a st n).bitmap = (clear_bits b st n).bitmap := by
  induction n generalizing st with
  | zero => intro a b h; exact h
  | succ n ih =>
    intro a b h
    show (clear_bits (clear_bit a st) (st + 1) n).bitmap = _
    apply ih (st + 1)
    simp only [clear_bit, h]

theorem bitmap_eq_of_bits (x y : List Nat) (hlen : x.length = y.length)
    (hxw : ∀ w ∈ x, w < U64) (hyw : ∀ w ∈ y, w < U64)
    (hbit : ∀ widx t, t < 64 → widx < x.length →
      (x.getD widx 0).testBit t = (y.getD widx 0).testBit t) : x = y := by
  apply List.ext_getElem?
  intro i
  by_cases hi : i < x.length
  · rcases hx : x[i]? with _ | v
    · rw [List.getElem?_eq_none_iff] at hx
      omega
    · rcases hy : y[i]? with _ | w
      · rw [List.getElem?_eq_none_iff] at hy
        omega
      · have hveq : v = w := by
          apply Nat.eq_of_testBit_eq
          intro t
          by_cases ht : t < 64
          · have := hbit i t ht hi
            simpa [List.getD_eq_getElem?_getD, hx, hy] using this
          · have hv : v < U64 := hxw v (List.getElem?_mem hx)
            have hw : w < U64 := hyw w (List.getElem?_mem hy)
            rw [Nat.testBit_lt_two_pow, Nat.testBit_lt_two_pow]
            · calc w < 2 ^ 64 := hw
                _ ≤ 2 ^ t := Nat.pow_le_pow_right (by norm_num) (by omega)
            · calc v < 2 ^ 64 := hv
                _ ≤ 2 ^ t := Nat.pow_le_pow_right (by norm_num) (by omega)
        rw [hveq]
  · rw [List.getElem?_eq_none (by omega), List.getElem?_eq_none (by omega)]

/-- Clearing a freshly marked free run restores the bitmap exactly. -/
theorem clear_set_roundtrip (a : Arena) (st n : Nat)
    (hw : ∀ w ∈ a.bitmap, w < U64) (hb : st + n ≤ 64 * a.bitmap.length)
    (hfree : ∀ k, k < n → is_bit_set a (st + k) = false) :
    (clear_bits (set_bits a st n) st n).bitmap = a.bitmap := by
  apply bitmap_eq_of_bits
  · rw [length_clear_bits, length_set_bits]
  · exact words_lt_clear_bits st n _ (words_lt_set_bits st n a hw)
  · exact hw
  · intro widx t ht hwid
    rw [← is_bit_set_word _ widx t ht, ← is_bit_set_word a widx t ht]
    rw [is_bit_set_clear_bits st n _ _
        (by rw [length_set_bits]; exact hb),
      is_bit_set_set_bits st n a _ hb]
    by_cases hr : st ≤ 64 * widx + t ∧ 64 * widx + t < st + n
    · have hz : is_bit_set a (64 * widx + t) = false := by
        have := hfree (64 * widx + t - st) (by omega)
        rw [show st + (64 * widx + t - st) = 64 * widx + t by omega] at this
        exact this
      simp [hr, hz]
    · simp [hr]

/-! ## The allocator invariant of the single-arena trace machine -/

theorem getD_replicate_zero (n i : Nat) :
    (List.replicate n (0:Nat)).getD i 0 = 0 := by
  rw [List.getD_eq_getElem?_getD, List.getElem?_replicate]
  split <;> rfl

theorem is_bit_set_init (j : Nat) : is_bit_set init_arena j = false := by
  show (((List.replicate ((HEAP_SIZE / BLOCK_SIZE + 63) / 64) 0).getD (j / 64) 0
      &&& (1 <<< (j % 64))) != 0) = false
  rw [getD_replicate_zero, Nat.zero_and]
  rfl

theorem store_read_self (m : Nat → Nat) (x v : Nat) : store m x v x = v := by
  simp [store]

theorem store_read_other (m : Nat → Nat) (x v y : Nat) (h : y ≠ x) :
    store m x v y = m y := by
  simp [store, h]

theorem nblocks_eq (s : Nat) (h : s + 24 < U64) : nblocks s = (s + 23) / 16 := by
  rw [nblocks, show (sizeof_size_t : Nat) = 8 from rfl,
    show (BLOCK_SIZE : Nat) = 16 from rfl]
  rw [Nat.mod_eq_of_lt (show s + 8 < U64 by omega)]
  rw [Nat.mod_eq_of_lt (show s + 8 + (16 - 1) < U64 by omega)]

theorem nblocks_pos (s : Nat) (h : s + 24 < U64) : 1 ≤ nblocks s := by
  rw [nblocks_eq s h]
  omega

/-- Without `size_t` wrap, the marked run covers the header word and the
requested bytes. -/
theorem nblocks_covers (s : Nat) (h : s + 24 < U64) :
    s + sizeof_size_t ≤ nblocks s * BLOCK_SIZE := by
  rw [nblocks_eq s h, show (sizeof_size_t : Nat) = 8 from rfl,
    show (BLOCK_SIZE : Nat) = 16 from rfl]
  omega

theorem inRun_pair (p s j : Nat) :
    inRun (p, s) j ↔ runStart p ≤ j ∧ j < runStart p + nblocks s := Iff.rfl

theorem RunsDisjoint_symm : ∀ x y, RunsDisjoint x y → RunsDisjoint y x :=
  fun _ _ h j hj => h j ⟨hj.2, hj.1⟩

theorem Inv_init : Inv (init_arena, []) := by
  refine ⟨rfl, rfl, by norm_num [init_arena, HEAP_SIZE, BLOCK_SIZE], ?_, ?_,
    by simp, List.Pairwise.nil, List.nodup_nil, ?_⟩
  · show (List.replicate ((HEAP_SIZE / BLOCK_SIZE + 63) / 64) (0:Nat)).length = 1024
    rw [List.length_replicate]
    norm_num [HEAP_SIZE, BLOCK_SIZE]
  · intro w hw
    rw [List.eq_of_mem_replicate hw]
    exact Nat.pos_pow_of_pos 64 (by norm_num)
  · intro j _
    rw [is_bit_set_init]
    simp

/-- A successful allocation step preserves the invariant and appends a
well-formed live allocation. -/
theorem Inv_alloc (a a' : Arena) (L : List (Nat × Nat)) (s p : Nat)
    (hInv : Inv (a, L)) (hs24 : s + 24 < U64)
    (h : tinymalloc a s none = (some p, a')) : Inv (a', (p, s) :: L) := by
  obtain ⟨hheap, hhs, hbs, hlen, hwords, hlive, hpair, hnodup, hbits⟩ := hInv
  obtain ⟨hs0, a1, hcase, hfind, hp, ha'⟩ := tinymalloc_some a s none p a' h
  have ha1 : a1 = a := by
    rcases hcase with h1 | ⟨_, r, e, he, hex⟩
    · exact h1
    · rw [extend_heap_none] at hex
      simp at hex
  rw [ha1] at hfind hp ha'
  obtain ⟨hbound, hfreerun, -⟩ :=
    find_free_blocks_sound a (nblocks s) (find_free_blocks a (nblocks s)) rfl hfind
  have hbound' : find_free_blocks a (nblocks s) + nblocks s ≤ 65536 := by
    rw [hhs] at hbound
    norm_num [HEAP_SIZE, BLOCK_SIZE] at hbound
    exact hbound
  have hn1 : 1 ≤ nblocks s := nblocks_pos s hs24
  have hpal : align_size_t (a.heap + find_free_blocks a (nblocks s) * BLOCK_SIZE) =
      a.heap + find_free_blocks a (nblocks s) * BLOCK_SIZE := by
    apply align_size_t_of_aligned
    · rw [hheap, show (BLOCK_SIZE : Nat) = 16 from rfl]
      omega
    · rw [hheap, show (BLOCK_SIZE : Nat) = 16 from rfl, U64]
      have h40 : (2:Nat) ^ 40 = 1099511627776 := by norm_num
      have h64' : (2:Nat) ^ 64 = 18446744073709551616 := by norm_num
      rw [h40, h64']
      omega
  have hpe : p = 2 ^ 40 + find_free_blocks a (nblocks s) * BLOCK_SIZE +
      sizeof_size_t := by
    rw [hp, hpal, hheap]
  have hrs : runStart p = find_free_blocks a (nblocks s) := by
    rw [hpe, runStart, show (BLOCK_SIZE : Nat) = 16 from rfl,
      show (sizeof_size_t : Nat) = 8 from rfl]
    omega
  rw [allocate_blocks_snd] at ha'
  have hA : a'.heap = a.heap ∧
      a'.mem = store a.mem
        (align_size_t (a.heap + find_free_blocks a (nblocks s) * BLOCK_SIZE)) s ∧
      a'.bitmap = (set_bits a (find_free_blocks a (nblocks s)) (nblocks s)).bitmap ∧
      a'.heap_size = a.heap_size ∧ a'.bitmap_size = a.bitmap_size := by
    rw [ha']
    simp [update_arena_usage]
  obtain ⟨hAheap, hAmem, hAbm, hAhs, hAbs⟩ := hA
  have hbitchar : ∀ j, is_bit_set a' j =
      (is_bit_set a j ||
        decide (find_free_blocks a (nblocks s) ≤ j ∧
          j < find_free_blocks a (nblocks s) + nblocks s)) := by
    intro j
    rw [is_bit_set_congr a' (set_bits a (find_free_blocks a (nblocks s)) (nblocks s)) hAbm]
    exact is_bit_set_set_bits _ _ a j (by rw [hlen]; omega)
  have hdisj : ∀ q ∈ L, RunsDisjoint (p, s) q := by
    intro q hq j hj
    obtain ⟨hjnew, hjold⟩ := hj
    obtain ⟨-, -, hqn1, hqb, -⟩ := hlive q hq
    have hj65536 : j < 65536 := by
      obtain ⟨-, h2⟩ := hjold
      omega
    have hset : is_bit_set a j = true := (hbits j hj65536).mpr ⟨q, hq, hjold⟩
    obtain ⟨h1, h2⟩ := (inRun_pair p s j).mp hjnew
    rw [hrs] at h1 h2
    have hfree : is_bit_set a j = false := by
      have := hfreerun (j - find_free_blocks a (nblocks s)) (by omega)
      rw [show find_free_blocks a (nblocks s) +
        (j - find_free_blocks a (nblocks s)) = j by omega] at this
      exact this
    rw [hset] at hfree
    simp at hfree
  have hnotmem : (p, s) ∉ L := by
    intro hmem
    refine hdisj (p, s) hmem (runStart p) ⟨?_, ?_⟩ <;>
      exact (inRun_pair p s (runStart p)).mpr
        ⟨Nat.le_refl _, by rw [hrs]; omega⟩
  refine ⟨hAheap.trans hheap, hAhs.trans hhs, hAbs.trans hbs, ?_, ?_, ?_, ?_, ?_, ?_⟩
  · rw [hAbm, length_set_bits, hlen]
  · intro w hw
    rw [hAbm] at hw
    exact words_lt_set_bits _ _ a hwords w hw
  · intro q hq
    rcases List.mem_cons.mp hq with hq1 | hq2
    · subst hq1
      refine ⟨by rw [hrs]; exact hpe, hs24, hn1, by rw [hrs]; exact hbound', ?_⟩
      rw [hrs, hAmem, hpal, ← hheap]
      exact store_read_self _ _ _
    · obtain ⟨hq1, hq2', hq3, hq4, hq5⟩ := hlive q hq2
      refine ⟨hq1, hq2', hq3, hq4, ?_⟩
      rw [hAmem, hpal]
      rw [store_read_other]
      · exact hq5
      · rw [hheap]
        intro heq
        have hstq : runStart q.1 = find_free_blocks a (nblocks s) := by
          have hB : (BLOCK_SIZE : Nat) = 16 := rfl
          rw [hB] at heq
          omega
        apply hdisj q hq2 (find_free_blocks a (nblocks s))
        refine ⟨(inRun_pair p s _).mpr ⟨?_, ?_⟩, ⟨?_, ?_⟩⟩
        · rw [hrs]
        · rw [hrs]; omega
        · show runStart q.1 ≤ find_free_blocks a (nblocks s)
          rw [hstq]
        · show find_free_blocks a (nblocks s) < runStart q.1 + nblocks q.2
          rw [hstq]; omega
  · exact List.Pairwise.cons hdisj hpair
  · exact List.nodup_cons.mpr ⟨hnotmem, hnodup⟩
  · intro j hj
    rw [hbitchar j]
    constructor
    · intro hor
      rcases Bool.or_eq_true_iff.mp hor with h1 | h2
      · obtain ⟨q, hq, hjq⟩ := (hbits j hj).mp h1
        exact ⟨q, List.mem_cons_of_mem _ hq, hjq⟩
      · refine ⟨(p, s), List.mem_cons_self _ _, (inRun_pair p s j).mpr ⟨?_, ?_⟩⟩
        · rw [hrs]
          exact (of_decide_eq_true h2).1
        · rw [hrs]
          exact (of_decide_eq_true h2).2
    · rintro ⟨q, hq, hjq⟩
      rcases List.mem_cons.mp hq with hq1 | hq2
      · subst hq1
        apply Bool.or_eq_true_iff.mpr
        right
        apply decide_eq_true
        obtain ⟨h1, h2⟩ := (inRun_pair p s j).mp hjq
        rw [hrs] at h1 h2
        exact ⟨h1, h2⟩
      · apply Bool.or_eq_true_iff.mpr
        left
        exact (hbits j hj).mpr ⟨q, hq2, hjq⟩

/-- Deallocating a live allocation frees exactly its recorded run. -/
theorem tinyfree_live (a : Arena) (L : List (Nat × Nat)) (ps : Nat × Nat)
    (hInv : Inv (a, L)) (hmem : ps ∈ L) :
    tinyfree a ps.1 = free_blocks a (runStart ps.1) (nblocks ps.2) := by
  obtain ⟨hheap, hhs, hbs, hlen, hwords, hlive, hpair, hnodup, hbits⟩ := hInv
  obtain ⟨hpe, hs24, hn1, hbound, hhd⟩ := hlive ps hmem
  conv_lhs => rw [hpe]
  rw [← hheap]
  apply tinyfree_inside
  · rw [hhs]
    norm_num [HEAP_SIZE, BLOCK_SIZE]
    exact hbound
  · exact hn1
  · rw [hheap]
    exact hhd

/-- Bit-level effect of deallocating a live allocation: exactly the bits of
its run are cleared. -/
theorem tinyfree_live_bitchar (a : Arena) (L : List (Nat × Nat))
    (ps : Nat × Nat) (hInv : Inv (a, L)) (hmem : ps ∈ L) (j : Nat) :
    is_bit_set (tinyfree a ps.1) j =
      (is_bit_set a j &&
        !decide (runStart ps.1 ≤ j ∧ j < runStart ps.1 + nblocks ps.2)) := by
  have hI := hInv
  obtain ⟨-, -, -, hlen, -, hlive, -, -, -⟩ := hI
  obtain ⟨-, -, hn1, hbound, -⟩ := hlive ps hmem
  rw [tinyfree_live a L ps hInv hmem]
  rw [is_bit_set_congr _ (clear_bits a (runStart ps.1) (nblocks ps.2))
    (free_blocks_bitmap a _ _)]
  exact is_bit_set_clear_bits _ _ a j (by rw [hlen]; omega)

/-- A deallocation step of a live pointer clears exactly its run and
preserves the invariant. -/
theorem Inv_free (a : Arena) (L : List (Nat × Nat)) (ps : Nat × Nat)
    (hInv : Inv (a, L)) (hmem : ps ∈ L) :
    Inv (tinyfree a ps.1, L.erase ps) := by
  have hfree_eq : tinyfree a ps.1 =
      free_blocks a (runStart ps.1) (nblocks ps.2) :=
    tinyfree_live a L ps hInv hmem
  obtain ⟨hheap, hhs, hbs, hlen, hwords, hlive, hpair, hnodup, hbits⟩ := hInv
  obtain ⟨hpe, hs24, hn1, hbound, hhd⟩ := hlive ps hmem
  have hsymmR : Symmetric RunsDisjoint := fun u v huv => RunsDisjoint_symm u v huv
  rw [hfree_eq]
  obtain ⟨hFheap, hFmem, hFhs, hFbs⟩ :=
    free_blocks_fields a (runStart ps.1) (nblocks ps.2)
  have hbitchar : ∀ j,
      is_bit_set (free_blocks a (runStart ps.1) (nblocks ps.2)) j =
      (is_bit_set a j &&
        !decide (runStart ps.1 ≤ j ∧ j < runStart ps.1 + nblocks ps.2)) := by
    intro j
    rw [is_bit_set_congr _ (clear_bits a (runStart ps.1) (nblocks ps.2))
      (free_blocks_bitmap a _ _)]
    exact is_bit_set_clear_bits _ _ a j (by rw [hlen]; omega)
  refine ⟨hFheap.trans hheap, hFhs.trans hhs, hFbs.trans hbs, ?_, ?_, ?_, ?_, ?_, ?_⟩
  · rw [free_blocks_bitmap, length_clear_bits, hlen]
  · intro w hw
    rw [free_blocks_bitmap] at hw
    exact words_lt_clear_bits _ _ a hwords w hw
  · intro q hq
    have hqL := List.mem_of_mem_erase hq
    obtain ⟨hq1, hq2, hq3, hq4, hq5⟩ := hlive q hqL
    exact ⟨hq1, hq2, hq3, hq4, by rw [hFmem]; exact hq5⟩
  · exact hpair.sublist (List.erase_sublist ps L)
  · exact hnodup.erase ps
  · intro j hj
    rw [hbitchar j]
    constructor
    · intro hand
      obtain ⟨hbit, hnotrun⟩ := Bool.and_eq_true_iff.mp hand
      obtain ⟨q, hqL, hjq⟩ := (hbits j hj).mp hbit
      have hqne : q ≠ ps := by
        intro he
        subst he
        rw [Bool.not_eq_true', decide_eq_false_iff_not] at hnotrun
        exact hnotrun hjq
      exact ⟨q, (List.mem_erase_of_ne hqne).mpr hqL, hjq⟩
    · rintro ⟨q, hq, hjq⟩
      have hqL := List.mem_of_mem_erase hq
      have hqne : q ≠ ps := by
        intro he
        subst he
        exact hnodup.not_mem_erase hq
      apply Bool.and_eq_true_iff.mpr
      refine ⟨(hbits j hj).mpr ⟨q, hqL, hjq⟩, ?_⟩
      rw [Bool.not_eq_true', decide_eq_false_iff_not]
      intro hrun
      exact hpair.forall hsymmR hqL hmem hqne j ⟨hjq, hrun⟩

/-- Every reachable configuration of the trace machine satisfies the
allocator invariant. -/
theorem Reach_Inv (x : Arena × List (Nat × Nat)) (h : Reach x) : Inv x := by
  rw [Reach] at h
  induction h with
  | refl => exact Inv_init
  | tail h1 hstep ih =>
    cases hstep with
    | allocOk a a' L s p hs24 hmal => exact Inv_alloc a a' L s p ih hs24 hmal
    | allocFail a a' L s hmal =>
      rw [tinymalloc_none a s a' hmal]
      exact ih
    | free a L ps hm => exact Inv_free a L ps ih hm

/-! ## Immediate reuse of a freed run (claim C7) -/

theorem allocate_memory_fst (a : Arena) (s : Nat) (o : Option Nat) :
    (allocate_memory a s o).fst = (try_allocate a s o).fst := by
  rw [allocate_memory]
  rcases h : try_allocate a s o with ⟨r0, a1⟩
  cases r0 <;> rfl

theorem try_allocate_of_found (a : Arena) (s : Nat) (o : Option Nat)
    (h : find_free_blocks a (nblocks s) ≠ SIZE_MAX) :
    try_allocate a s o =
      allocate_blocks a (find_free_blocks a (nblocks s)) (nblocks s) s := by
  simp only [try_allocate]
  rw [if_neg h]

theorem extend_heap_some_snd (a : Arena) (e b : Nat) :
    (extend_heap a e (some b)).snd.heap = b ∧
    (extend_heap a e (some b)).snd.heap_size =
      (a.heap_size + (e + (PAGE_SIZE - 1)) % U64 / PAGE_SIZE * PAGE_SIZE) % U64 ∧
    (extend_heap a e (some b)).snd.bitmap_size =
      ((extend_heap a e (some b)).snd.heap_size / BLOCK_SIZE + 63) / 64 ∧
    (extend_heap a e (some b)).snd.bitmap =
      a.bitmap.take a.bitmap_size ++
        List.replicate
          ((extend_heap a e (some b)).snd.bitmap_size - a.bitmap_size) 0 := by
  exact ⟨rfl, rfl, rfl, rfl⟩

/-- An extension that succeeds with a well-formed page-aligned fresh base
yields a state in which the allocation can be rerun. -/
theorem extend_state_wf (a : Arena) (e b r : Nat) (a1 : Arena)
    (hwf : WfA a) (hb : b % PAGE_SIZE = 0 ∧ 0 < b ∧ b < 2 ^ 60)
    (he : e < 2 ^ 52)
    (hex : extend_heap a e (some b) = (some r, a1)) :
    a1.heap = b ∧ a1.heap_size < 2 ^ 53 ∧
    a1.bitmap_size = (a1.heap_size / BLOCK_SIZE + 63) / 64 ∧
    a1.bitmap.length = a1.bitmap_size ∧ (∀ w ∈ a1.bitmap, w < U64) := by
  obtain ⟨hlen, hwords, hbs, hhs50, hheap0, hheapal, hheaplt⟩ := hwf
  have hsnd : (extend_heap a e (some b)).snd = a1 := congrArg Prod.snd hex
  obtain ⟨e1, e2, e3, e4⟩ := extend_heap_some_snd a e b
  rw [hsnd] at e1 e2 e3 e4
  have hext_le : (e + (PAGE_SIZE - 1)) % U64 / PAGE_SIZE * PAGE_SIZE ≤
      e + (PAGE_SIZE - 1) := by
    calc (e + (PAGE_SIZE - 1)) % U64 / PAGE_SIZE * PAGE_SIZE
        ≤ (e + (PAGE_SIZE - 1)) % U64 := Nat.div_mul_le_self _ _
      _ ≤ e + (PAGE_SIZE - 1) := Nat.mod_le _ _
  have c1 : (2:Nat) ^ 50 = 1125899906842624 := by norm_num
  have c2 : (2:Nat) ^ 52 = 4503599627370496 := by norm_num
  have c3 : (2:Nat) ^ 53 = 9007199254740992 := by norm_num
  have hP : (PAGE_SIZE : Nat) = 4096 := rfl
  have hnowrap : a.heap_size +
      (e + (PAGE_SIZE - 1)) % U64 / PAGE_SIZE * PAGE_SIZE < U64 := by
    have hU : U64 = 18446744073709551616 := by rw [U64]; norm_num
    rw [c1] at hhs50
    rw [c2] at he
    rw [hP] at hext_le ⊢
    rw [hU] at hext_le ⊢
    omega
  have hhs1 : a1.heap_size =
      a.heap_size + (e + (PAGE_SIZE - 1)) % U64 / PAGE_SIZE * PAGE_SIZE := by
    rw [e2, Nat.mod_eq_of_lt hnowrap]
  have hhs1lt : a1.heap_size < 2 ^ 53 := by
    rw [hhs1]
    rw [c1] at hhs50
    rw [c2] at he
    rw [c3]
    rw [hP] at hext_le ⊢
    omega
  have hbsmono : a.bitmap_size ≤ a1.bitmap_size := by
    rw [e3, hbs, hhs1]
    have h1 : a.heap_size / BLOCK_SIZE ≤ a1.heap_size / BLOCK_SIZE :=
      Nat.div_le_div_right (by rw [hhs1]; omega)
    rw [hhs1] at h1
    exact Nat.div_le_div_right (by omega)
  refine ⟨e1, hhs1lt, e3, ?_, ?_⟩
  · rw [e4, List.length_append, List.length_take, List.length_replicate, hlen]
    omega
  · intro w hw
    rw [e4] at hw
    rcases List.mem_append.mp hw with h | h
    · exact hwords w (List.mem_of_mem_take h)
    · rw [List.eq_of_mem_replicate h]
      exact Nat.pos_pow_of_pos 64 (by norm_num)

/-- After `p = tinymalloc(s)` and `tinyfree(p)` with nothing in between,
the next `tinymalloc(s')` returns the same pointer `p`, for any request
`s'` that needs the same number of blocks. -/
theorem alloc_free_alloc_same (a : Arena) (s s' p : Nat) (o1 o2 : Option Nat)
    (hwf : WfA a) (ho1 : OracleOk o1) (hsz : s < 2 ^ 50)
    (h1 : (tinymalloc a s o1).fst = some p)
    (hnb : nblocks s' = nblocks s) (hs' : s' ≠ 0) :
    (tinymalloc (tinyfree (tinymalloc a s o1).snd p) s' o2).fst = some p := by
  obtain ⟨hlen, hwords, hbs, hhs50, hheap0, hheapal, hheaplt⟩ := hwf
  have hpair : tinymalloc a s o1 = (some p, (tinymalloc a s o1).snd) := by
    rcases hmal : tinymalloc a s o1 with ⟨r0, aX⟩
    rw [hmal] at h1
    simp only at h1
    rw [h1]
  obtain ⟨hs0, a1, hcase, hfind, hp, ha'⟩ := tinymalloc_some a s o1 p _ hpair
  have hs24 : s + 24 < U64 := by
    rw [U64]
    have c1 : (2:Nat) ^ 50 = 1125899906842624 := by norm_num
    have c3 : (2:Nat) ^ 64 = 18446744073709551616 := by norm_num
    rw [c1] at hsz
    rw [c3]
    omega
  have hn1 : 1 ≤ nblocks s := nblocks_pos s hs24
  have hn16 : nblocks s * BLOCK_SIZE ≤ s + 38 := by
    rw [nblocks_eq s hs24, show (BLOCK_SIZE : Nat) = 16 from rfl]
    have := Nat.div_mul_le_self (s + 23) 16
    omega
  have hA1 : a1.heap % PAGE_SIZE = 0 ∧ 0 < a1.heap ∧ a1.heap < 2 ^ 60 ∧
      a1.heap_size < 2 ^ 53 ∧
      a1.bitmap_size = (a1.heap_size / BLOCK_SIZE + 63) / 64 ∧
      a1.bitmap.length = a1.bitmap_size ∧ (∀ w ∈ a1.bitmap, w < U64) := by
    rcases hcase with h1c | ⟨-, r, e, he, hex⟩
    · subst h1c
      refine ⟨hheapal, hheap0, hheaplt, ?_, hbs, hlen, hwords⟩
      calc a1.heap_size < 2 ^ 50 := hhs50
        _ < 2 ^ 53 := by norm_num
    · rcases o1 with _ | b
      · rw [extend_heap_none] at hex
        simp at hex
      · obtain ⟨hb1, hb2, hb3⟩ := ho1 b rfl
        have hebound : e < 2 ^ 52 := by
          have c1 : (2:Nat) ^ 50 = 1125899906842624 := by norm_num
          have c2 : (2:Nat) ^ 52 = 4503599627370496 := by norm_num
          rw [c1] at hsz hhs50
          rw [c2]
          omega
        obtain ⟨w1, w2, w3, w4, w5⟩ := extend_state_wf a e b r a1
          ⟨hlen, hwords, hbs, hhs50, hheap0, hheapal, hheaplt⟩
          ⟨hb1, hb2, hb3⟩ hebound hex
        refine ⟨by rw [w1]; exact hb1, by rw [w1]; exact hb2,
          by rw [w1]; exact hb3, w2, w3, w4, w5⟩
  obtain ⟨hA1al, hA1pos, hA1lt, hA1hs, hA1bs, hA1len, hA1words⟩ := hA1
  obtain ⟨hbound, hfreerun, -⟩ :=
    find_free_blocks_sound a1 (nblocks s) _ rfl hfind
  have hst16 : find_free_blocks a1 (nblocks s) * BLOCK_SIZE ≤ a1.heap_size := by
    calc find_free_blocks a1 (nblocks s) * BLOCK_SIZE
        ≤ a1.heap_size / BLOCK_SIZE * BLOCK_SIZE :=
          Nat.mul_le_mul_right _ (by omega)
      _ ≤ a1.heap_size := Nat.div_mul_le_self _ _
  have hpal : align_size_t
      (a1.heap + find_free_blocks a1 (nblocks s) * BLOCK_SIZE) =
      a1.heap + find_free_blocks a1 (nblocks s) * BLOCK_SIZE := by
    apply align_size_t_of_aligned
    · rw [show (BLOCK_SIZE : Nat) = 16 from rfl]
      rw [show (PAGE_SIZE : Nat) = 4096 from rfl] at hA1al
      omega
    · rw [U64]
      have c1 : (2:Nat) ^ 60 = 1152921504606846976 := by norm_num
      have c2 : (2:Nat) ^ 53 = 9007199254740992 := by norm_num
      have c3 : (2:Nat) ^ 64 = 18446744073709551616 := by norm_num
      rw [c1] at hA1lt
      rw [c2] at hA1hs
      rw [c3]
      omega
  have hpe : p = a1.heap + find_free_blocks a1 (nblocks s) * BLOCK_SIZE +
      sizeof_size_t := by
    rw [hp, hpal]
  rw [allocate_blocks_snd] at ha'
  have hA'heap : (tinymalloc a s o1).snd.heap = a1.heap := by
    rw [ha']
    simp [update_arena_usage]
  have hA'mem : (tinymalloc a s o1).snd.mem = store a1.mem
      (align_size_t (a1.heap + find_free_blocks a1 (nblocks s) * BLOCK_SIZE))
      s := by
    rw [ha']
    simp [update_arena_usage]
  have hA'bm : (tinymalloc a s o1).snd.bitmap =
      (set_bits a1 (find_free_blocks a1 (nblocks s)) (nblocks s)).bitmap := by
    rw [ha']
    simp [update_arena_usage]
  have hA'hs : (tinymalloc a s o1).snd.heap_size = a1.heap_size := by
    rw [ha']
    simp [update_arena_usage]
  have hA'bs : (tinymalloc a s o1).snd.bitmap_size = a1.bitmap_size := by
    rw [ha']
    simp [update_arena_usage]
  have hbound' : find_free_blocks a1 (nblocks s) + nblocks s ≤
      (tinymalloc a s o1).snd.heap_size / BLOCK_SIZE := by
    rw [hA'hs]
    exact hbound
  have hmemv : (tinymalloc a s o1).snd.mem
      ((tinymalloc a s o1).snd.heap +
        find_free_blocks a1 (nblocks s) * BLOCK_SIZE) = s := by
    rw [hA'mem, hA'heap, hpal]
    exact store_read_self _ _ _
  have hfree_eq : tinyfree (tinymalloc a s o1).snd p =
      free_blocks (tinymalloc a s o1).snd (find_free_blocks a1 (nblocks s))
        (nblocks s) := by
    conv_lhs => rw [hpe, ← hA'heap]
    exact tinyfree_inside _ _ s hbound' hn1 hmemv
  obtain ⟨hFheap, hFmem, hFhs, hFbs⟩ := free_blocks_fields
    (tinymalloc a s o1).snd (find_free_blocks a1 (nblocks s)) (nblocks s)
  have h64len : find_free_blocks a1 (nblocks s) + nblocks s ≤
      64 * a1.bitmap.length := by
    rw [hA1len, hA1bs]
    have : a1.heap_size / BLOCK_SIZE ≤
        64 * ((a1.heap_size / BLOCK_SIZE + 63) / 64) := by omega
    omega
  have ha2bm : (free_blocks (tinymalloc a s o1).snd
      (find_free_blocks a1 (nblocks s)) (nblocks s)).bitmap = a1.bitmap := by
    rw [free_blocks_bitmap]
    rw [clear_bits_bitmap_congr _ _ (tinymalloc a s o1).snd
      (set_bits a1 (find_free_blocks a1 (nblocks s)) (nblocks s)) hA'bm]
    exact clear_set_roundtrip a1 _ _ hA1words h64len hfreerun
  have hfind2 : find_free_blocks (free_blocks (tinymalloc a s o1).snd
      (find_free_blocks a1 (nblocks s)) (nblocks s)) (nblocks s) =
      find_free_blocks a1 (nblocks s) :=
    find_free_blocks_congr _ a1 ha2bm (hFhs.trans hA'hs) (hFbs.trans hA'bs) _
  have hfound : find_free_blocks (free_blocks (tinymalloc a s o1).snd
      (find_free_blocks a1 (nblocks s)) (nblocks s)) (nblocks s') ≠
      SIZE_MAX := by
    rw [hnb, hfind2]
    exact hfind
  rw [hfree_eq, tinymalloc, if_neg hs', allocate_memory_fst,
    try_allocate_of_found _ s' o2 hfound, allocate_blocks_fst, hnb, hfind2,
    hFheap.trans hA'heap, hpal, ← hpe]

/-- The initial arena is well formed. -/
theorem WfA_init : WfA init_arena := by
  refine ⟨by simp [init_arena], ?_, by decide, by decide, by decide,
    by decide, by decide⟩
  intro w hw
  have h0 : w = 0 := List.eq_of_mem_replicate hw
  rw [h0]
  decide

set_option maxRecDepth 3000

/-! ## The claims -/

/-- C1 as written fails: after `p1 = tinymalloc(1)`, `p2 = tinymalloc(2^64 - 8)`
and `p3 = tinymalloc(1)`, all three allocations are simultaneously live
(none was ever freed), yet the second and third calls return the same
pointer `2^40 + 24`, so the half-open ranges `[p2, p2 + s2)` and
`[p3, p3 + s3)` overlap (the wrap of `size + sizeof(size_t)` makes the
second call occupy zero blocks). -/
theorem c1_overflow_alias :
    (tinymalloc init_arena 1 none).fst = some (2 ^ 40 + 8) ∧
    (tinymalloc (tinymalloc init_arena 1 none).snd (2 ^ 64 - 8) none).fst =
      some (2 ^ 40 + 24) ∧
    (tinymalloc (tinymalloc (tinymalloc init_arena 1 none).snd
        (2 ^ 64 - 8) none).snd 1 none).fst = some (2 ^ 40 + 24) ∧
    ¬ (((2 : Nat) ^ 40 + 24) + (2 ^ 64 - 8) ≤ 2 ^ 40 + 24 ∨
       ((2 : Nat) ^ 40 + 24) + 1 ≤ 2 ^ 40 + 24) :=
  ⟨by decide, by decide, by decide, by decide⟩

/-- C1 (amended): in every state reachable from the initialized allocator
by allocations whose size computation does not wrap (`size + 24 < 2^64`)
and that never extend the heap, together with deallocations of live
pointers, the half-open byte ranges of any two distinct simultaneously
live allocations are disjoint: no byte address lies in both. -/
theorem c1_live_ranges_disjoint (a : Arena) (L : List (Nat × Nat))
    (hx : Reach (a, L)) (ps1 ps2 : Nat × Nat)
    (h1 : ps1 ∈ L) (h2 : ps2 ∈ L) (hne : ps1 ≠ ps2) (x : Nat) :
    ¬ (ps1.1 ≤ x ∧ x < ps1.1 + ps1.2 ∧ ps2.1 ≤ x ∧ x < ps2.1 + ps2.2) := by
  obtain ⟨hheap, hhs, hbs, hlen, hwords, hlive, hpair, hnodup, hbits⟩ :=
    Reach_Inv _ hx
  rintro ⟨ha1, hb1, ha2, hb2⟩
  obtain ⟨hp1, hs1, hn1, hbd1, -⟩ := hlive ps1 h1
  obtain ⟨hp2, hs2, hn2, hbd2, -⟩ := hlive ps2 h2
  have hcov1 := nblocks_covers ps1.2 hs1
  have hcov2 := nblocks_covers ps2.2 hs2
  have hB : (BLOCK_SIZE : Nat) = 16 := rfl
  have hS : (sizeof_size_t : Nat) = 8 := rfl
  rw [hB, hS] at hp1 hp2 hcov1 hcov2
  have h40 : (2 : Nat) ^ 40 = 1099511627776 := by norm_num
  rw [h40] at hp1 hp2
  have hin1 : inRun ps1 ((x - 1099511627776) / 16) := by
    refine ⟨?_, ?_⟩ <;> omega
  have hin2 : inRun ps2 ((x - 1099511627776) / 16) := by
    refine ⟨?_, ?_⟩ <;> omega
  exact hpair.forall (fun u v huv => RunsDisjoint_symm u v huv) h1 h2 hne
    ((x - 1099511627776) / 16) ⟨hin1, hin2⟩

/-- C1 witness: a concrete reachable state with two live allocations,
`(2^40 + 8, 100)` and `(2^40 + 120, 50)`, and the byte `2^40 + 8` does not
lie in both ranges. -/
theorem c1_disjoint_witness :
    ¬ ((2 ^ 40 + 8 : Nat) ≤ 2 ^ 40 + 8 ∧ (2 ^ 40 + 8 : Nat) < 2 ^ 40 + 8 + 100 ∧
       (2 ^ 40 + 120 : Nat) ≤ 2 ^ 40 + 8 ∧
       (2 ^ 40 + 8 : Nat) < 2 ^ 40 + 120 + 50) := by
  have hstep1 : Step (init_arena, []) ((tinymalloc init_arena 100 none).snd,
      [(2 ^ 40 + 8, 100)]) := by
    have hf : tinymalloc init_arena 100 none =
        (some (2 ^ 40 + 8), (tinymalloc init_arena 100 none).snd) :=
      Prod.ext (by decide) rfl
    exact Step.allocOk init_arena _ [] 100 (2 ^ 40 + 8) (by decide) hf
  have hstep2 : Step ((tinymalloc init_arena 100 none).snd, [(2 ^ 40 + 8, 100)])
      ((tinymalloc (tinymalloc init_arena 100 none).snd 50 none).snd,
        [(2 ^ 40 + 120, 50), (2 ^ 40 + 8, 100)]) := by
    have hf : tinymalloc (tinymalloc init_arena 100 none).snd 50 none =
        (some (2 ^ 40 + 120),
          (tinymalloc (tinymalloc init_arena 100 none).snd 50 none).snd) :=
      Prod.ext (by decide) rfl
    exact Step.allocOk _ _ _ 50 (2 ^ 40 + 120) (by decide) hf
  have hr : Reach ((tinymalloc (tinymalloc init_arena 100 none).snd 50 none).snd,
      [(2 ^ 40 + 120, 50), (2 ^ 40 + 8, 100)]) :=
    Relation.ReflTransGen.tail
      (Relation.ReflTransGen.tail Relation.ReflTransGen.refl hstep1) hstep2
  exact c1_live_ranges_disjoint _ _ hr (2 ^ 40 + 8, 100) (2 ^ 40 + 120, 50)
    (by decide) (by decide) (by decide) (2 ^ 40 + 8)

/-- C2 fails: `tinymalloc(2^64 - 8)` wraps the total-size computation
(`blocks_needed = 0`), returns a non-null pointer and marks no block used,
so the returned region is not backed by any blocks at all. -/
theorem c2_huge_size_unbacked :
    (tinymalloc init_arena (2 ^ 64 - 8) none).fst = some (2 ^ 40 + 8) ∧
    (tinymalloc init_arena (2 ^ 64 - 8) none).snd.bitmap =
      init_arena.bitmap ∧
    nblocks (2 ^ 64 - 8) = 0 :=
  ⟨by decide, rfl, by decide⟩

/-- C3 fails as stated: in `c3_state` a free run of two blocks starts at
block 3 and its end lies below `heap_size / BLOCK_SIZE`, yet
`find_free_blocks` returns `SIZE_MAX` (it tries only one candidate bit per
word and scans only `bitmap_size / 8` words). -/
theorem c3_skipped_free_run :
    find_free_blocks c3_state 2 = SIZE_MAX ∧
    blocks_all_free c3_state 3 2 = true ∧
    3 + 2 ≤ c3_state.heap_size / BLOCK_SIZE :=
  ⟨by decide, by decide, by decide⟩

/-- C3 (amended): `find_free_blocks` is an approximate first fit: it visits
word indices below `bitmap_size / sizeof(uint64_t)` in order, considers
from each word that is not all-ones the single candidate start
`64 * word_index + lowest clear bit`, and returns the first candidate whose
run of `blocks_needed` bits is entirely clear and ends no later than
`heap_size / BLOCK_SIZE`, returning `SIZE_MAX` when no candidate
qualifies. -/
theorem c3_candidate_first_fit (a : Arena) (n : Nat)
    (hw : ∀ w ∈ a.bitmap, w < U64) :
    find_free_blocks a n = amendedFindFreeBlocks a n :=
  find_free_blocks_eq_amended a n hw

/-- C3 witness: the amended description evaluated at `c3_state`. -/
theorem c3_candidate_witness :
    find_free_blocks c3_state 2 = amendedFindFreeBlocks c3_state 2 :=
  c3_candidate_first_fit c3_state 2 (by decide)

/-- C4 fails as stated: the allocation `pA = tinymalloc(2^64 - 8)` (from the
state after one `tinymalloc(1)`) sets no bits, yet after a further
`tinymalloc(100)` returns the same pointer region, `tinyfree(pA)` clears
the seven bits `[1, 8)` that the later allocation set: word 0 of the bitmap
drops from 255 to 1, so deallocation does not clear exactly the bits its
own allocation set. -/
theorem c4_foreign_clear :
    (tinymalloc (tinymalloc init_arena 1 none).snd (2 ^ 64 - 8) none).fst =
      some (2 ^ 40 + 24) ∧
    (tinymalloc (tinymalloc init_arena 1 none).snd (2 ^ 64 - 8) none).snd.bitmap =
      (tinymalloc init_arena 1 none).snd.bitmap ∧
    ((tinymalloc (tinymalloc (tinymalloc init_arena 1 none).snd
        (2 ^ 64 - 8) none).snd 100 none).snd.bitmap.getD 0 0 = 255) ∧
    ((tinyfree (tinymalloc (tinymalloc (tinymalloc init_arena 1 none).snd
        (2 ^ 64 - 8) none).snd 100 none).snd (2 ^ 40 + 24)).bitmap.getD 0 0 = 1) :=
  ⟨by decide, rfl, by decide, by decide⟩

/-- C4 (amended): in wrap-free runs without heap extension, when every
allocation has been deallocated the bitmap is all-zero over the used
prefix, and deallocating a live allocation clears exactly the bits of its
own run. -/
theorem c4_bitmap_roundtrip :
    (∀ (a : Arena) (L : List (Nat × Nat)), Reach (a, L) → L = [] →
      ∀ j, j < 65536 → is_bit_set a j = false) ∧
    (∀ (a : Arena) (L : List (Nat × Nat)) (ps : Nat × Nat),
      Reach (a, L) → ps ∈ L → ∀ j,
      is_bit_set (tinyfree a ps.1) j =
        (is_bit_set a j &&
          !decide (runStart ps.1 ≤ j ∧ j < runStart ps.1 + nblocks ps.2))) := by
  constructor
  · intro a L hr hL j hj
    obtain ⟨-, -, -, -, -, -, -, -, hbits⟩ := Reach_Inv _ hr
    cases hb : is_bit_set a j with
    | false => rfl
    | true =>
      obtain ⟨ps, hpsmem, -⟩ := (hbits j hj).mp hb
      rw [hL] at hpsmem
      exact absurd hpsmem (List.not_mem_nil ps)
  · intro a L ps hr hm j
    exact tinyfree_live_bitchar a L ps (Reach_Inv _ hr) hm j

/-- C4 witness: in the initial (empty) state every bit of the used prefix
is clear. -/
theorem c4_roundtrip_witness : is_bit_set init_arena 0 = false :=
  c4_bitmap_roundtrip.1 init_arena [] Relation.ReflTransGen.refl rfl 0 (by decide)

/-- C5 fails as stated: for `ptr = heap + 4` the header address
`ptr - sizeof(size_t) = heap - 4` lies outside the heap region, yet
`tinyfree(ptr)` is not a no-op: bit 0 of the bitmap is cleared, word 0
drops from 127 to 126 (the code range-checks `ptr`, not the header
address). -/
theorem c5_header_boundary :
    ((2 : Nat) ^ 40 + 4 ≠ 0) ∧
    ¬ ((tinymalloc init_arena 100 none).snd.heap ≤
          (2 ^ 40 + 4) - sizeof_size_t ∧
        (2 ^ 40 + 4) - sizeof_size_t <
          (tinymalloc init_arena 100 none).snd.heap +
            (tinymalloc init_arena 100 none).snd.heap_size) ∧
    (tinymalloc init_arena 100 none).snd.bitmap.getD 0 0 = 127 ∧
    (tinyfree (tinymalloc init_arena 100 none).snd
        (2 ^ 40 + 4)).bitmap.getD 0 0 = 126 :=
  ⟨by decide, by decide, by decide, by decide⟩

/-- C5 (amended): `tinyfree` is a silent no-op for every non-null pointer
that itself lies outside the heap range of the arena: the state is
returned unchanged. -/
theorem c5_outside_pointer_noop (a : Arena) (ptr : Nat) (hnz : ptr ≠ 0)
    (hout : ¬ (a.heap ≤ ptr ∧ ptr < a.heap + a.heap_size)) :
    tinyfree a ptr = a := by
  unfold tinyfree find_arena_for_pointer
  rw [if_neg hnz, if_neg hout]

/-- C5 witness: freeing the foreign pointer `1` leaves the initial arena
unchanged. -/
theorem c5_noop_witness : tinyfree init_arena 1 = init_arena :=
  c5_outside_pointer_noop init_arena 1 (by decide) (by decide)

/-- C6 fails: a successful `tinymalloc(100)` needs `blocks_needed = 7`
blocks but bumps the counter twice (once in `allocate_blocks`, once in
`update_arena_usage`), leaving `allocated_blocks = 14`, not 7. -/
theorem c6_double_count :
    (tinymalloc init_arena 100 none).fst = some (2 ^ 40 + 8) ∧
    nblocks 100 = 7 ∧
    (tinymalloc init_arena 100 none).snd.allocated_blocks =
      init_arena.allocated_blocks + 14 :=
  ⟨by decide, by decide, by decide⟩

/-- C7 fails for an arbitrary prior state: from the reachable state left by
`tinymalloc(1)`, `tinymalloc(1)`, `tinyfree` of the first pointer, the
chain `p = tinymalloc(24)`, `tinyfree(p)`, `tinymalloc(1)` returns
`2^40 + 8`, not `p = 2^40 + 1032`, although `1 ≤ 24` (a smaller request can
fit in an earlier hole that the freed run did not reopen for `s`). -/
theorem c7_prior_state_fails :
    ((1 : Nat) ≤ 24) ∧
    (tinymalloc (tinyfree (tinymalloc (tinymalloc init_arena 1 none).snd
        1 none).snd (2 ^ 40 + 8)) 24 none).fst = some (2 ^ 40 + 1032) ∧
    (tinymalloc (tinyfree (tinymalloc (tinyfree (tinymalloc (tinymalloc
        init_arena 1 none).snd 1 none).snd (2 ^ 40 + 8)) 24 none).snd
        (2 ^ 40 + 1032)) 1 none).fst = some (2 ^ 40 + 8) ∧
    ((2 : Nat) ^ 40 + 8 ≠ 2 ^ 40 + 1032) :=
  ⟨by decide, by decide, by decide, by decide⟩

/-- C7 (amended): from any well-formed state, after a successful
`p = tinymalloc(s)` (page-aligned growth oracle, `s < 2^50`) followed
immediately by `tinyfree(p)`, the very next `tinymalloc(s')` returns the
same pointer `p` whenever `s'` needs the same number of blocks as `s`
(`nblocks s' = nblocks s`, `s' ≠ 0`). -/
theorem c7_immediate_reuse (a : Arena) (s s' p : Nat) (o1 o2 : Option Nat)
    (hwf : WfA a) (ho1 : OracleOk o1) (hsz : s < 2 ^ 50)
    (h1 : (tinymalloc a s o1).fst = some p)
    (hnb : nblocks s' = nblocks s) (hs' : s' ≠ 0) :
    (tinymalloc (tinyfree (tinymalloc a s o1).snd p) s' o2).fst = some p :=
  alloc_free_alloc_same a s s' p o1 o2 hwf ho1 hsz h1 hnb hs'

/-- C7 witness: allocate 100 bytes from the initial arena, free the
returned pointer, allocate 100 bytes again: the same pointer comes back. -/
theorem c7_reuse_witness :
    (tinymalloc (tinyfree (tinymalloc init_arena 100 none).snd (2 ^ 40 + 8))
        100 none).fst = some (2 ^ 40 + 8) :=
  c7_immediate_reuse init_arena 100 100 (2 ^ 40 + 8) none none WfA_init
    (by intro b hb; simp at hb) (by decide) (by decide) rfl (by decide)

/-- C8: for every 64-bit word that is not all-ones,
`ffs(complement) - 1 = ctz(complement)`, and `find_free_blocks` computes
the same result as the variant that always uses the count-trailing-zeros
primitive, for every block count and well-formed bitmap. -/
theorem c8_ffs_ctz_agree :
    (∀ w : Nat, w < U64 → w ≠ UINT64_MAX →
      ffs64 (compl64 w) - 1 = ctz64 (compl64 w)) ∧
    (∀ (a : Arena) (n : Nat), (∀ w ∈ a.bitmap, w < U64) →
      find_free_blocks a n = find_free_blocks_ctz a n) := by
  constructor
  · intro w hw hmax
    obtain ⟨k, -, -, -, hctz, hffs⟩ :=
      ctz64_eq_least_set (compl64 w) (compl64_ne_zero w hmax) (compl64_lt_U64 w hw)
    rw [hctz, hffs]
    omega
  · intro a n hw
    exact find_free_blocks_eq_ctz_variant a n hw

/-- C8 witness: the two primitives agree on the word 5, and the two
find variants agree on `c3_state`. -/
theorem c8_agree_witness :
    ffs64 (compl64 5) - 1 = ctz64 (compl64 5) ∧
    find_free_blocks c3_state 2 = find_free_blocks_ctz c3_state 2 :=
  ⟨c8_ffs_ctz_agree.1 5 (by decide) (by decide),
   c8_ffs_ctz_agree.2 c3_state 2 (by decide)⟩

/-- C9: `tinymalloc(0)` returns the null pointer and leaves the allocator
state unchanged, and `tinyfree(NULL)` returns normally with the state
unchanged. -/
theorem c9_zero_null_noop :
    (∀ (a : Arena) (o : Option Nat), tinymalloc a 0 o = (none, a)) ∧
    (∀ a : Arena, tinyfree a 0 = a) :=
  ⟨fun _ _ => rfl, fun _ => rfl⟩

/-- C10 fails as stated: neither `tinymalloc` nor `tinyfree` ever acquires
an arena mutex — the count of arena-mutex acquisitions in their traces is
0, not 1. -/
theorem c10_no_arena_lock :
    arenaLockCount (tinymallocLocks true 100) ≠ 1 ∧
    arenaLockCount (tinyfreeLocks (2 ^ 40 + 8)) ≠ 1 :=
  ⟨by decide, by decide⟩

/-- C10 (amended): on every call with nonzero argument, `tinymalloc` and
`tinyfree` acquire no arena mutex at all; each acquires the single global
`malloc_mutex` exactly once, and the whole trace is well nested (LIFO) with
no mutex left held, so the single-lock discipline is deadlock-free. -/
theorem c10_global_lock_trace (first_call : Bool) (size ptr : Nat)
    (hsz : size ≠ 0) (hptr : ptr ≠ 0) :
    arenaLockCount (tinymallocLocks first_call size) = 0 ∧
    (tinymallocLocks first_call size).count
      (LockEvent.lock MutexId.malloc_mutex) = 1 ∧
    WellNested (tinymallocLocks first_call size) ∧
    arenaLockCount (tinyfreeLocks ptr) = 0 ∧
    (tinyfreeLocks ptr).count (LockEvent.lock MutexId.malloc_mutex) = 1 ∧
    WellNested (tinyfreeLocks ptr) := by
  simp only [tinymallocLocks, tinyfreeLocks, if_neg hsz, if_neg hptr]
  cases first_call <;>
    exact ⟨by decide, by decide, rfl, by decide, by decide, rfl⟩

/-- C10 witness: the lock traces of a first-call `tinymalloc(100)` and of
`tinyfree(1)`. -/
theorem c10_trace_witness :
    arenaLockCount (tinymallocLocks true 100) = 0 ∧
    (tinymallocLocks true 100).count (LockEvent.lock MutexId.malloc_mutex) = 1 ∧
    WellNested (tinymallocLocks true 100) ∧
    arenaLockCount (tinyfreeLocks 1) = 0 ∧
    (tinyfreeLocks 1).count (LockEvent.lock MutexId.malloc_mutex) = 1 ∧
    WellNested (tinyfreeLocks 1) :=
  c10_global_lock_trace true 100 1 (by decide) (by decide)


end Tinymalloc
